import Mathlib

/-!
Verification of the artifact_analysis record-linkage pipeline.

This file shallowly embeds the three Python sources
(generate_combined_rankings.py, enrich_affiliations_csrankings.py,
enrich_affiliations_dblp_incremental.py) into Lean and proves or refutes
the behavioural claims about them.  Strings are modelled as Lean strings
(lists of unicode scalar values); the character classification and case
functions model the fragment of the corresponding Python functions that the
development exercises: the full ASCII range, on which they agree with
CPython exactly, together with the specific non-ASCII characters the
theorems mention (U+00E9, U+0301, U+0130, U+0307), handled as CPython
handles them.  A theorem quantified over all strings either holds for
arbitrary scalar values or carries an explicit all-ASCII hypothesis
restricting it to the faithful fragment.

Layout: all definitions come first, then all theorems.
-/

/-! # Definitions -/

/-! ## Character primitives (ASCII fragment of the Python string methods) -/

/-- ASCII fragment of Python str.lower applied to a single character:
uppercase A-Z is shifted by 32, everything else is untouched. -/
def pyLower (c : Char) : Char :=
  if 65 ≤ c.toNat ∧ c.toNat ≤ 90 then Char.ofNat (c.toNat + 32) else c

/-- Python str.lower on one character, as the list of characters it
produces.  CPython applies the full Unicode case mapping, under which
U+0130 (LATIN CAPITAL LETTER I WITH DOT ABOVE) is the unique character
whose lowercase consists of two characters, U+0069 followed by U+0307
(COMBINING DOT ABOVE); every other character lowercases to one character,
which on the fragment modelled here is pyLower of it.  (_normalize_name
also calls str.lower, but only after NFKD, which decomposes U+0130 into
U+0049 U+0307, so no character with a multi-character lowercase survives
to that call and the per-character pyLower is exact there.) -/
def pyLowerFull (c : Char) : List Char :=
  if c.toNat = 304 then [Char.ofNat 105, Char.ofNat 775] else [pyLower c]

/-- Fragment of Python str.isalnum for one character: the ASCII letters and
digits, plus U+0130 (LATIN CAPITAL LETTER I WITH DOT ABOVE, category Lu,
alphanumeric in Python), the one non-ASCII letter this development uses.
U+0307 (COMBINING DOT ABOVE, category Mn) is not alphanumeric in Python and
is correctly rejected here. -/
def pyIsAlnum (c : Char) : Bool :=
  (65 ≤ c.toNat ∧ c.toNat ≤ 90) ∨ (97 ≤ c.toNat ∧ c.toNat ≤ 122) ∨
    (48 ≤ c.toNat ∧ c.toNat ≤ 57) ∨ c.toNat = 304

/-- Python str.isspace restricted to ASCII, where it coincides with the
regex class backslash-s (CPython decides both by Py_UNICODE_ISSPACE):
tab through carriage return (9-13), the separators U+001C-U+001F, and
space.  Non-ASCII whitespace (U+0085, U+00A0, ...) is outside the
modelled fragment. -/
def pyIsSpace (c : Char) : Bool :=
  c.toNat = 32 ∨ (9 ≤ c.toNat ∧ c.toNat ≤ 13) ∨ (28 ≤ c.toNat ∧ c.toNat ≤ 31)

/-- ASCII decimal digit, the fragment of the regex class backslash-d used here. -/
def pyIsDigit (c : Char) : Bool := 48 ≤ c.toNat ∧ c.toNat ≤ 57

/-- ASCII fragment of the regex word class backslash-w. -/
def pyIsWord (c : Char) : Bool := pyIsAlnum c ∨ c = '_'

/-- Python str.strip with no arguments: remove leading and trailing
whitespace. -/
def pyStrip (l : List Char) : List Char :=
  ((l.dropWhile pyIsSpace).reverse.dropWhile pyIsSpace).reverse

/-- Python str.split with no arguments: whitespace-separated tokens, with no
empty tokens. -/
def pySplit (l : List Char) : List (List Char) :=
  (l.splitOnP pyIsSpace).filter (· ≠ [])

/-- Boolean test that a list starts with the given second list. -/
def startsWithTok : List Char → List Char → Bool
  | _, [] => true
  | [], _ :: _ => false
  | a :: as, b :: bs => a = b && startsWithTok as bs

/-- NFKD decomposition (unicodedata.normalize with form NFKD), restricted to
the characters exercised in this development; ASCII characters are genuinely
NFKD-inert and every other character used below is listed in the table.
U+00E9 (e with acute) decomposes into U+0065 followed by the combining acute
accent U+0301, and the combining accent itself is NFKD-inert. -/
def nfkdChar (c : Char) : List Char :=
  if c = 'é' then ['e', Char.ofNat 0x0301] else [c]

/-- NFKD decomposition of a whole string. -/
def nfkdStr (l : List Char) : List Char := l.flatMap nfkdChar

/-! ## Name Normalizer of generate_combined_rankings.py -/

namespace Rankings

/-- Regex sub for the pattern of _DBLP_SUFFIX, namely whitespace-run followed
by exactly four digits at the end of the string (anchored with a dollar sign).
The pattern matches iff the last four characters are digits and the character
before them is whitespace; the leftmost match consumes the whole whitespace
run, so the substitution removes the maximal trailing whitespace run together
with the four digits. -/
def stripDblpSuffix (l : List Char) : List Char :=
  let r := l.reverse
  if (r.take 4).length = 4 ∧ (r.take 4).all pyIsDigit ∧
      ((r.drop 4).takeWhile pyIsSpace) ≠ [] then
    ((r.drop 4).dropWhile pyIsSpace).reverse
  else l

/-- Regex sub for the pattern of _INITIALS: a word boundary, an uppercase
letter A-Z, a literal dot, then a greedy optional whitespace run, scanned a
character at a time.  The Option argument holds an uppercase letter seen at a
word boundary whose following character has not been examined yet; the first
Bool records whether the scan is inside the whitespace run of a match just
replaced; the second Bool records whether the previous character of the
original string was a word character, which decides the word boundary.
After a replaced match the previous character is a dot or whitespace, hence
a non-word character. -/
def stripInitialsAux : Option Char → Bool → Bool → List Char → List Char
  | none, _, _, [] => []
  | some u, _, _, [] => [u]
  | some u, _, _, c :: rest =>
    if c = '.' then stripInitialsAux none true false rest
    else u :: c :: stripInitialsAux none false (pyIsWord c) rest
  | none, skipWs, prevW, c :: rest =>
    if skipWs ∧ pyIsSpace c then stripInitialsAux none true false rest
    else if ¬ prevW ∧ 65 ≤ c.toNat ∧ c.toNat ≤ 90 then
      stripInitialsAux (some c) false false rest
    else c :: stripInitialsAux none false (pyIsWord c) rest

/-- Regex sub replacing every match of _INITIALS by the empty string; the
start of the string is a word boundary for a leading uppercase letter. -/
def stripInitials (l : List Char) : List Char := stripInitialsAux none false false l

/-- Regex sub for _MULTI_SPACE: every maximal whitespace run becomes a single
space character.  The flag records whether the scan is inside a run whose
replacement space was already emitted. -/
def collapseWsAux : Bool → List Char → List Char
  | _, [] => []
  | inRun, c :: rest =>
    if pyIsSpace c then
      if inRun then collapseWsAux true rest
      else ' ' :: collapseWsAux true rest
    else c :: collapseWsAux false rest

/-- Regex sub for _MULTI_SPACE on a whole string. -/
def collapseWs (l : List Char) : List Char := collapseWsAux false l

/-- Shallow embedding of _normalize_name: NFKD unicode, lower-case, strip the
DBLP disambiguation suffix, strip single-letter initials, collapse whitespace
and strip, then strip leading underscores and strip again. -/
def _normalize_name (s : String) : String :=
  let l1 := nfkdStr s.data
  let l2 := l1.map pyLower
  let l3 := stripDblpSuffix l2
  let l4 := stripInitials l3
  let l5 := pyStrip (collapseWs l4)
  let l6 := pyStrip (l5.dropWhile (· = '_'))
  ⟨l6⟩

end Rankings

/-! ## Normalizer and Fuzzy Matcher of enrich_affiliations_csrankings.py -/

namespace CSRankings

/-- Shallow embedding of normalize_name: keep only alphanumeric and
whitespace characters, lower-case each kept character (a one-character
string for everything but U+0130), join, and strip. -/
def normalize_name (s : String) : String :=
  ⟨pyStrip ((s.data.filter (fun c => pyIsAlnum c || pyIsSpace c)).flatMap pyLowerFull)⟩

/-- Shallow embedding of fuzzy_name_match: normalize both names; exact match,
otherwise split into tokens, require both token lists non-empty and equal
last tokens (the surname gate), then accept equal first tokens or an
initial-versus-expanded first token in either direction. -/
def fuzzy_name_match (author_name csrankings_name : String) : Bool :=
  let an := (normalize_name author_name).data
  let cn := (normalize_name csrankings_name).data
  if an = cn then true
  else
    match pySplit an, pySplit cn with
    | [], _ => false
    | _ :: _, [] => false
    | a1 :: as, c1 :: cs =>
      if (a1 :: as).getLast? ≠ (c1 :: cs).getLast? then false
      else if a1 = c1 then true
      else if (a1.length = 1 && startsWithTok c1 a1) ||
          (c1.length = 1 && startsWithTok a1 c1) then true
      else false

end CSRankings

/-! ## Incremental Search Scheduler of enrich_affiliations_dblp_incremental.py -/

namespace DBLP

/-- Backoff base in days: search unsuccessful authors again after 1 day. -/
def BACKOFF_DEFAULT : ℕ := 1

/-- Backoff multiplier: double the backoff each time. -/
def BACKOFF_MULTIPLIER : ℕ := 2

/-- Backoff cap in days. -/
def BACKOFF_MAX : ℕ := 30

/-- SearchHistoryEntry: one record per author ever searched. -/
structure HistEntry where
  found : Bool
  last_search_ts : Int
  attempt_count : ℕ
deriving DecidableEq

/-- Reason component of the should_search_author result. -/
inductive Reason where
  | new_author
  | already_found
  | backoff_expired (days : ℕ)
  | backoff_active (hoursLeft : Int)
deriving DecidableEq

/-- Backoff period in days for a given attempt count, as computed inside
should_search_author. -/
def backoffDays (n : ℕ) : ℕ :=
  min (BACKOFF_DEFAULT * BACKOFF_MULTIPLIER ^ n) BACKOFF_MAX

/-- Shallow embedding of should_search_author.  Time is the number of seconds
(time.time()); the history maps author names to their entries. -/
def should_search_author (now : Int) (author_name : String)
    (history : List (String × HistEntry)) : Bool × Reason :=
  match history.lookup author_name with
  | none => (true, .new_author)
  | some entry =>
    if entry.found then (false, .already_found)
    else
      let bd := backoffDays entry.attempt_count
      let bs : Int := (bd : Int) * 86400
      let t := now - entry.last_search_ts
      if bs ≤ t then (true, .backoff_expired bd)
      else (false, .backoff_active ((bs - t) / 3600))

end DBLP

/-! ## Generic stable insertion sort (model of Python list.sort) -/

/-- Stable insertion of one element: the new element is placed before the
first existing element it is strictly less than, hence after all elements
less than or equal to it, as Python's stable sort does for an element that
arrives later. -/
def pyInsert {α : Type} (lt : α → α → Bool) (p : α) : List α → List α
  | [] => [p]
  | q :: qs => if lt p q then p :: q :: qs else q :: pyInsert lt p qs

/-- Stable sort by the strict comparison lt, processing elements in their
original order. -/
def pySort {α : Type} (lt : α → α → Bool) (l : List α) : List α :=
  l.foldl (fun acc p => pyInsert lt p acc) []

/-! ## Merge and Disambiguation Engine of generate_combined_rankings.py -/

namespace Rankings

/-- Years of an author record arrive either as a year-to-count mapping or as
a bare list of years. -/
inductive YearsField where
  | asMap (m : List (Int × Int))
  | asList (l : List Int)
deriving DecidableEq

/-- AuthorRecord as read from the per-area author JSON.  The total and
artifact_count fields are optional because the code reads them with
a.get('total', a.get('artifact_count', 0)). -/
structure AuthorRecord where
  name : String
  affiliation : String
  conferences : List String
  years : YearsField
  total : Option Int
  artifact_count : Option Int
  total_papers : Int
  artifact_rate : ℚ
  badges_available : Int
  badges_functional : Int
  badges_reproducible : Int
deriving DecidableEq

/-- CommitteeMemberRecord as read from the AE member JSON. -/
structure MemberRecord where
  name : String
  affiliation : String
  conferences : List String
  years : List (Int × Int)
  total_memberships : Int
  chair_count : Int
deriving DecidableEq

/-- CombinedEntry, the output dict of _build_entry (without the rank field,
which is attached after sorting). -/
structure CombinedEntry where
  name : String
  affiliation : String
  artifacts : Int
  artifact_score : Int
  total_papers : Int
  artifact_rate : ℚ
  ae_memberships : Int
  chair_count : Int
  ae_score : Int
  combined_score : Int
  badges_available : Int
  badges_functional : Int
  badges_reproducible : Int
  conferences : List String
  years : List (Int × Int)
  first_year : Option Int
  last_year : Option Int
deriving DecidableEq

/-- Scoring weight: each available artifact adds one point. -/
def W_AVAILABLE : Int := 1

/-- Scoring weight: each functional badge adds one point. -/
def W_FUNCTIONAL : Int := 1

/-- Scoring weight: each reproducible badge adds one point. -/
def W_REPRODUCIBLE : Int := 1

/-- Scoring weight: each AE membership adds three points. -/
def W_AE_MEMBERSHIP : Int := 3

/-- Scoring weight: each chair role adds two points on top of membership. -/
def W_AE_CHAIR : Int := 2

/-- Shallow embedding of _build_entry with the weighted scoring. -/
def _build_entry (name affiliation : String) (artifacts total_papers : Int)
    (artifact_rate : ℚ) (ae_memberships chair_count : Int)
    (conferences : List String) (years : List (Int × Int))
    (badges_available badges_functional badges_reproducible : Int) : CombinedEntry :=
  let artifact_score := artifacts * W_AVAILABLE + badges_functional * W_FUNCTIONAL
    + badges_reproducible * W_REPRODUCIBLE
  let ae_score := ae_memberships * W_AE_MEMBERSHIP + chair_count * W_AE_CHAIR
  let combined_score := artifact_score + ae_score
  let yr_keys := years.map (·.1)
  { name := name, affiliation := affiliation, artifacts := artifacts,
    artifact_score := artifact_score, total_papers := total_papers,
    artifact_rate := artifact_rate, ae_memberships := ae_memberships,
    chair_count := chair_count, ae_score := ae_score,
    combined_score := combined_score, badges_available := badges_available,
    badges_functional := badges_functional,
    badges_reproducible := badges_reproducible, conferences := conferences,
    years := years, first_year := yr_keys.min?, last_year := yr_keys.max? }

/-- Python string comparison: lexicographic by unicode code point, with a
proper prefix ordered first. -/
def lexLt : List Char → List Char → Bool
  | [], [] => false
  | [], _ :: _ => true
  | _ :: _, [] => false
  | a :: as, b :: bs => if a < b then true else if b < a then false else lexLt as bs

/-- Python sorted() on a list of strings. -/
def sortStrings (l : List String) : List String :=
  pySort (fun s t => lexLt s.data t.data) l

/-- Size of the set-intersection of two conference lists (the first list is
deduplicated as Python set() does; membership in the second list is set
membership). -/
def confOverlap (a b : List String) : ℕ :=
  (a.dedup.filter (fun c => c ∈ b)).length

/-- Normalization of the polymorphic author years field: a bare list of
years becomes a mapping with count one per distinct year. -/
def authorYears : YearsField → List (Int × Int)
  | .asMap m => m
  | .asList l => l.dedup.map (fun y => (y, 1))

/-- One step of the year-activity merge: years[yr] = max(years.get(yr, 0), cnt),
with dict update-in-place semantics for existing keys and append for new keys. -/
def updateYearMax (m : List (Int × Int)) (yr cnt : Int) : List (Int × Int) :=
  if m.any (fun p => p.1 = yr) then
    m.map (fun p => if p.1 = yr then (p.1, max p.2 cnt) else p)
  else m ++ [(yr, max 0 cnt)]

/-- Merge the member year map into the author year map, keeping the maximum
count per year. -/
def mergeYears (ay my : List (Int × Int)) : List (Int × Int) :=
  my.foldl (fun acc p => updateYearMax acc p.1 p.2) ay

/-- One step of building member_by_norm: on a normalized-name collision, the
incoming member replaces the stored one only when it has strictly more
memberships; a fresh key is appended in insertion order. -/
def insertMember (idx : List (String × MemberRecord)) (m : MemberRecord) :
    List (String × MemberRecord) :=
  let norm := _normalize_name m.name
  if idx.any (fun p => p.1 = norm) then
    idx.map (fun p =>
      if p.1 = norm ∧ p.2.total_memberships < m.total_memberships then (norm, m) else p)
  else idx ++ [(norm, m)]

/-- Index of AE members by normalized name (a dict in insertion order). -/
def member_by_norm (members : List MemberRecord) : List (String × MemberRecord) :=
  members.foldl insertMember []

/-- Authors sharing a given normalized name, in their original order (the
entry of author_groups for that key). -/
def authorGroup (authors : List AuthorRecord) (norm : String) : List AuthorRecord :=
  authors.filter (fun a => _normalize_name a.name = norm)

/-- Conference overlap between an author and a member. -/
def overlap (a : AuthorRecord) (m : MemberRecord) : ℕ :=
  confOverlap a.conferences m.conferences

/-- The scored list of the disambiguation step sorted descending by overlap
(Python list.sort with key minus-overlap). -/
def sortScored (l : List (ℕ × String)) : List (ℕ × String) :=
  pySort (fun p q => q.1 < p.1) l

/-- The _ae_winner entry for a normalized name: Option.none when the name is
in at most one of the two indexes (no entry is created), some none when the
disambiguation is ambiguous, and some (some w) when author name w wins. -/
def aeWinner (authors : List AuthorRecord) (members : List MemberRecord)
    (norm : String) : Option (Option String) :=
  match authorGroup authors norm with
  | [] => none
  | a :: rest =>
    match (member_by_norm members).lookup norm with
    | none => none
    | some mem =>
      if rest = [] then some (some a.name)
      else
        match sortScored ((a :: rest).map (fun x => (overlap x mem, x.name))) with
        | [] => some none
        | (o1, n1) :: srest =>
          if (decide (0 < o1) && (match srest.head? with
              | none => true
              | some p => decide (p.1 < o1))) then some (some n1)
          else some none

/-- The is_winner test of the author walk: the normalized name has a winner
entry and it names this author. -/
def isWinner (authors : List AuthorRecord) (members : List MemberRecord)
    (a : AuthorRecord) : Bool :=
  aeWinner authors members (_normalize_name a.name) = some (some a.name)

/-- The artifacts count of an author: a.get('total', a.get('artifact_count', 0)),
and the final or-0 is the identity on integers. -/
def artifactsOf (a : AuthorRecord) : Int := a.total.getD (a.artifact_count.getD 0)

/-- The combined entry built for an author that absorbs the member data:
member affiliation when non-empty (Python or), merged conference sets and
year maps, and the member committee counts. -/
def absorbedEntry (a : AuthorRecord) (m : MemberRecord) : CombinedEntry :=
  _build_entry a.name
    (if m.affiliation ≠ "" then m.affiliation else a.affiliation)
    (artifactsOf a) a.total_papers a.artifact_rate
    m.total_memberships m.chair_count
    (sortStrings ((a.conferences ++ m.conferences).dedup))
    (mergeYears (authorYears a.years) m.years)
    a.badges_available a.badges_functional a.badges_reproducible

/-- The combined entry built for an author without member data. -/
def soloEntry (a : AuthorRecord) : CombinedEntry :=
  _build_entry a.name a.affiliation
    (artifactsOf a) a.total_papers a.artifact_rate 0 0
    (sortStrings a.conferences.dedup)
    (authorYears a.years)
    a.badges_available a.badges_functional a.badges_reproducible

/-- The body of the author walk of _merge_rankings: the member data is
attached only when this author is the designated winner for its key. -/
def authorEntry (authors : List AuthorRecord) (members : List MemberRecord)
    (a : AuthorRecord) : CombinedEntry :=
  if isWinner authors members a then
    match (member_by_norm members).lookup (_normalize_name a.name) with
    | some m => absorbedEntry a m
    | none => soloEntry a
  else soloEntry a

/-- The standalone combined entry for an AE member not linked to any author;
note the conference list is sorted without set conversion here. -/
def standaloneMemberEntry (m : MemberRecord) : CombinedEntry :=
  _build_entry m.name m.affiliation 0 0 0
    m.total_memberships m.chair_count
    (sortStrings m.conferences)
    m.years
    0 0 0

/-- The linked_ae_norms test: some author was walked as the winner of this
normalized name (the winner name always belongs to the author group, so this
is exactly the presence of a some-some winner entry). -/
def linkedAe (authors : List AuthorRecord) (members : List MemberRecord)
    (norm : String) : Bool :=
  match aeWinner authors members norm with
  | some (some _) => true
  | _ => false

/-- The sort key comparison of _merge_rankings: Python tuple less-than on
(-combined_score, -artifacts, name). -/
def sortKeyLt (e f : CombinedEntry) : Bool :=
  if (-e.combined_score) < (-f.combined_score) then true
  else if (-f.combined_score) < (-e.combined_score) then false
  else if (-e.artifacts) < (-f.artifacts) then true
  else if (-f.artifacts) < (-e.artifacts) then false
  else lexLt e.name.data f.name.data

/-- Rank-assignment loop: given the previous score, the previous rank and
the one-based position of the current element, produce the ranks of the
remaining scores; a strict score drop starts a new rank equal to the
position, anything else keeps the previous rank. -/
def rkAux (prev : Int) (prevRank pos : ℕ) : List Int → List ℕ
  | [] => []
  | s :: rest =>
    let r := if s < prev then pos else prevRank
    r :: rkAux s r (pos + 1) rest

/-- Ranks of a score list: the first entry has rank 1. -/
def pyRanks : List Int → List ℕ
  | [] => []
  | s :: rest => 1 :: rkAux s 1 2 rest

/-- Attach ranks to a sorted entry list. -/
def attachRanks (es : List CombinedEntry) : List (CombinedEntry × ℕ) :=
  es.zip (pyRanks (es.map (·.combined_score)))

/-- Shallow embedding of _merge_rankings: build one entry per author, one
standalone entry per unlinked member, sort by (-combined_score, -artifacts,
name) and assign tie-aware dense ranks. -/
def _merge_rankings (authors : List AuthorRecord) (ae_members : List MemberRecord) :
    List (CombinedEntry × ℕ) :=
  let idx := member_by_norm ae_members
  let authorEntries := authors.map (authorEntry authors ae_members)
  let memberEntries := (idx.filter (fun p => ¬ linkedAe authors ae_members p.1)).map
    (fun p => standaloneMemberEntry p.2)
  let combined := pySort sortKeyLt (authorEntries ++ memberEntries)
  attachRanks combined

/-- The filter and re-rank step of generate_combined_rankings: keep entries
with combined_score at least 3 and re-run the rank assignment. -/
def filterRerank (ranked : List (CombinedEntry × ℕ)) : List (CombinedEntry × ℕ) :=
  let kept := (ranked.map Prod.fst).filter (fun c => 3 ≤ c.combined_score)
  kept.zip (pyRanks (kept.map (·.combined_score)))

end Rankings

/-- The rank property asserted by the specification for a ranked entry list:
the first entry has rank 1; an entry whose combined_score strictly drops
below its predecessor receives its own one-based position as rank, and an
entry whose combined_score equals its predecessor shares the predecessor
rank. -/
def rankSpecOf (ranked : List (Rankings.CombinedEntry × ℕ)) : Prop :=
  (∀ p : Rankings.CombinedEntry × ℕ, ranked[0]? = some p → p.2 = 1) ∧
  (∀ (j : ℕ) (p q : Rankings.CombinedEntry × ℕ),
    ranked[j]? = some p → ranked[j + 1]? = some q →
    (q.1.combined_score < p.1.combined_score → q.2 = j + 2) ∧
    (q.1.combined_score = p.1.combined_score → q.2 = p.2))

/-- Concrete author input used by the C2 witness (combined score 5). -/
def c2wAuthorHi : Rankings.AuthorRecord :=
  ⟨"Ada High", "U1", [], .asMap [], some 5, none, 6, 0, 0, 0, 0⟩

/-- Concrete author input used by the C2 witness (combined score 1). -/
def c2wAuthorLo : Rankings.AuthorRecord :=
  ⟨"Bob Low", "U2", [], .asMap [], some 1, none, 2, 0, 0, 0, 0⟩

/-- Concrete author input used by the C3 witness. -/
def c3wAuthor : Rankings.AuthorRecord :=
  ⟨"Cal Mid", "U3", [], .asMap [], some 2, none, 3, 0, 0, 1, 1⟩

/-- Concrete winner-scenario author for the C10 witness. -/
def c10Author : Rankings.AuthorRecord :=
  ⟨"Dee Win", "Old U", ["A"], .asMap [], some 1, none, 1, 0, 0, 0, 0⟩

/-- Concrete member with a non-empty affiliation for the C10 witness. -/
def c10Member : Rankings.MemberRecord := ⟨"Dee Win", "New U", ["A"], [], 1, 0⟩

/-- C1 counterexample author that legitimately wins by conference overlap. -/
def c1cA1 : Rankings.AuthorRecord :=
  ⟨"Wei Zhang", "", ["A"], .asMap [], some 0, none, 0, 0, 0, 0, 0⟩

/-- C1 counterexample author with the same raw name and zero overlap. -/
def c1cA2 : Rankings.AuthorRecord :=
  ⟨"Wei Zhang", "", [], .asMap [], some 0, none, 0, 0, 0, 0, 0⟩

/-- C1 counterexample committee member. -/
def c1cM : Rankings.MemberRecord := ⟨"Wei Zhang", "U", ["A"], [], 1, 0⟩

/-- C1 witness author with distinct raw name and overlap 1. -/
def c1wA1 : Rankings.AuthorRecord :=
  ⟨"Wei Zhang 0001", "", ["A", "B"], .asMap [], some 0, none, 0, 0, 0, 0, 0⟩

/-- C1 witness author with distinct raw name and overlap 0. -/
def c1wA2 : Rankings.AuthorRecord :=
  ⟨"Wei Zhang 0002", "", ["C"], .asMap [], some 0, none, 0, 0, 0, 0, 0⟩

/-- C1 witness committee member. -/
def c1wM : Rankings.MemberRecord := ⟨"Wei Zhang", "U", ["A"], [], 2, 1⟩

/-- C8 counterexample author (wins by overlap). -/
def c8cA1 : Rankings.AuthorRecord :=
  ⟨"Li Wei", "", ["S"], .asMap [], some 0, none, 0, 0, 0, 0, 0⟩

/-- C8 counterexample author with the same raw name. -/
def c8cA2 : Rankings.AuthorRecord :=
  ⟨"Li Wei", "", [], .asMap [], some 0, none, 0, 0, 0, 0, 0⟩

/-- C8 counterexample committee member. -/
def c8cM : Rankings.MemberRecord := ⟨"Li Wei", "V", ["S"], [], 1, 0⟩

/-- C8 witness author with distinct raw name, the winner. -/
def c8wA1 : Rankings.AuthorRecord :=
  ⟨"Li Wei 0001", "", ["S"], .asMap [], some 0, none, 0, 0, 0, 0, 0⟩

/-- C8 witness author with distinct raw name, the loser. -/
def c8wA2 : Rankings.AuthorRecord :=
  ⟨"Li Wei 0002", "", [], .asMap [], some 0, none, 0, 0, 0, 0, 0⟩

/-- C8 witness committee member. -/
def c8wM : Rankings.MemberRecord := ⟨"Li Wei", "V", ["S"], [], 1, 1⟩

/-! ## DBLP search and incremental enrichment of
enrich_affiliations_dblp_incremental.py -/

namespace DBLP

/-- Search hit of the DBLP author API: the hit author display name and its
url (from which the PID is extracted). -/
structure Hit where
  author : String
  url : String
deriving DecidableEq

/-- The two remote collaborators of a search attempt: the author search API
call and the person-page affiliation fetch.  The page-side HTML scraping is
an external collaborator per the specification, so the fetch returns the
affiliation text found on the page (or none); a network error
(requests.RequestException) is the error case of either call.  The on-disk
response cache is likewise an external wrapper: the oracle models the
searched-or-cached answer. -/
structure Net where
  searchApi : String → Except Unit (List Hit)
  fetchPage : String → Except Unit (Option String)

/-- Regex sub of four digits anchored at the end of the string (with no
whitespace requirement): the pattern matches iff the last four characters
are digits, and the match is exactly those four characters. -/
def stripTrailing4Digits (l : List Char) : List Char :=
  let r := l.reverse
  if (r.take 4).length = 4 ∧ (r.take 4).all pyIsDigit then (r.drop 4).reverse else l

/-- Match one alternation keyword of the suffix regex (jr|sr|phd|ii|iii|iv),
in regex alternation order (so iii can never match, ii preempts it), then an
optional literal dot; returns the remainder after the match. -/
def matchKw (l : List Char) : Option (List Char) :=
  match ([['j','r'], ['s','r'], ['p','h','d'], ['i','i'], ['i','i','i'],
      ['i','v']].find? (fun kw => startsWithTok l kw)) with
  | none => none
  | some kw =>
    match l.drop kw.length with
    | '.' :: rest2 => some rest2
    | rest => some rest

/-- Global regex sub of whitespace-run, alternation keyword, optional dot:
a match can only start at the beginning of a maximal whitespace run, the run
is consumed greedily, and scanning continues after each replacement.  The
fuel argument only bounds the recursion: every step consumes at least one
character, so a fuel equal to the input length never runs out. -/
def stripNameSuffixesAux : ℕ → List Char → List Char
  | 0, l => l
  | _, [] => []
  | fuel + 1, c :: rest =>
    if pyIsSpace c then
      match matchKw (rest.dropWhile pyIsSpace) with
      | some rem => stripNameSuffixesAux fuel rem
      | none => (c :: rest.takeWhile pyIsSpace) ++
          stripNameSuffixesAux fuel (rest.dropWhile pyIsSpace)
    else c :: stripNameSuffixesAux fuel rest

/-- Global regex sub of the name-suffix pattern on a whole string. -/
def stripNameSuffixes (l : List Char) : List Char := stripNameSuffixesAux l.length l

/-- Position of the first closing parenthesis: the remainder after it. -/
def splitCloseParen : List Char → Option (List Char)
  | [] => none
  | c :: rest => if c = ')' then some rest else splitCloseParen rest

/-- Global regex sub of a parenthesized run without nested closing
parentheses, with the same fuel convention. -/
def stripParensAux : ℕ → List Char → List Char
  | 0, l => l
  | _, [] => []
  | fuel + 1, c :: rest =>
    if c = '(' then
      match splitCloseParen rest with
      | some rem => stripParensAux fuel rem
      | none => c :: stripParensAux fuel rest
    else c :: stripParensAux fuel rest

/-- Global regex sub of parenthesized content on a whole string. -/
def stripParens (l : List Char) : List Char := stripParensAux l.length l

/-- Substring test of Python in: the second list occurs contiguously in the
first. -/
def hasSub : List Char → List Char → Bool
  | [], n => n = []
  | h :: t, n => startsWithTok (h :: t) n || hasSub t n

/-- The simplify helper of the dblp fuzzy_name_match: strip a trailing
four-digit run, strip and lower-case, remove suffix keywords, remove
parenthesized content, and normalize whitespace by split and join. -/
def dblpSimplify (s : String) : List Char :=
  let l1 := stripTrailing4Digits s.data
  let l2 := (pyStrip l1).map pyLower
  let l3 := stripNameSuffixes l2
  let l4 := stripParens l3
  List.intercalate [' '] (pySplit l4)

/-- Shallow embedding of the dblp fuzzy_name_match: exact simplified match,
substring containment in either direction, or equal last tokens. -/
def fuzzy_name_match (query_name result_name : String) : Bool :=
  let qs := dblpSimplify query_name
  let rs := dblpSimplify result_name
  if qs = rs then true
  else if hasSub rs qs || hasSub qs rs then true
  else
    match pySplit qs, pySplit rs with
    | q1 :: qt, r1 :: rt =>
        if (q1 :: qt).getLast? = (r1 :: rt).getLast? then true else false
    | _, _ => false

/-- Character class of the PID regex: word characters, slash, dash. -/
def pidChar (c : Char) : Bool := pyIsWord c || c = '/' || c = '-'

/-- Regex search of slash-pid-slash followed by a non-empty run of PID
characters: the leftmost position where the whole pattern matches wins. -/
def findPid : List Char → Option (List Char)
  | [] => none
  | c :: rest =>
    if startsWithTok (c :: rest) ['/', 'p', 'i', 'd', '/'] then
      match (rest.drop 4).takeWhile pidChar with
      | [] => findPid rest
      | run => some run
    else findPid rest

/-- First hit whose url yields a PID and whose author fuzzy-matches the
cleaned query. -/
def firstFuzzyPid (clean : String) : List Hit → Option String
  | [] => none
  | h :: t =>
    match findPid h.url.data with
    | some pid =>
        if fuzzy_name_match clean h.author then some ⟨pid⟩
        else firstFuzzyPid clean t
    | none => firstFuzzyPid clean t

/-- Shallow embedding of search_dblp_author: clean the query name, call the
search API (a network error yields None via the except handler), take the
first fuzzy-matching hit PID, and fall back to the first hit PID. -/
def search_dblp_author (net : Net) (author_name : String) : Option String :=
  let clean : String := ⟨pyStrip (Rankings.stripDblpSuffix author_name.data)⟩
  match net.searchApi clean with
  | .error _ => none
  | .ok hits =>
    if hits = [] then none
    else
      match firstFuzzyPid clean hits with
      | some pid => some pid
      | none =>
        match hits with
        | [] => none
        | h :: _ =>
          match findPid h.url.data with
          | some pid => some ⟨pid⟩
          | none => none

/-- Shallow embedding of fetch_affiliation_from_dblp_page: a network error
yields None via the except handler, and an empty affiliation text is
treated as not found. -/
def fetch_affiliation (net : Net) (pid : String) : Option String :=
  match net.fetchPage pid with
  | .error _ => none
  | .ok affilOpt =>
    match affilOpt with
    | some affil => if affil ≠ "" then some affil else none
    | none => none

/-- Author record as seen by the enrichment loop; the loop reads and writes
only the name and affiliation fields of each author dict, all other fields
ride along unchanged. -/
structure EnAuthor where
  name : String
  affiliation : String
deriving DecidableEq

/-- The skip test of the categorize phase: a non-empty affiliation that is
not Unknown and does not start with an underscore. -/
def hasGoodAffiliation (aff : String) : Bool :=
  aff ≠ "" && aff ≠ "Unknown" && ¬ (startsWithTok aff.data ['_'])

/-- Dict update of one history entry: replace in place or append. -/
def setHistEntry (h : List (String × HistEntry)) (name : String) (e : HistEntry) :
    List (String × HistEntry) :=
  if h.any (fun p => p.1 = name) then
    h.map (fun p => if p.1 = name then (name, e) else p)
  else h ++ [(name, e)]

/-- One search attempt of the enrichment loop: search the PID, fetch the
affiliation, update the author record only when an affiliation was found,
and produce the new history entry (found flag, timestamp now, incremented
attempt count read from the current history). -/
def searchStep (net : Net) (now : Int) (hist : List (String × HistEntry))
    (a : EnAuthor) : EnAuthor × HistEntry :=
  let pid := search_dblp_author net a.name
  let affil := match pid with
    | some p => fetch_affiliation net p
    | none => none
  let found := affil.isSome
  let a2 := match affil with
    | some s => { a with affiliation := s }
    | none => a
  let prev := ((hist.lookup a.name).map (fun e => e.attempt_count)).getD 0
  (a2, ⟨found, now, prev + 1⟩)

/-- The categorize phase of enrich_affiliations: authors with a good
affiliation or in backoff pass through; the rest join the search list with
priority 0 for new authors and 1 for retries, in source order. -/
def categorize (now : Int) (hist : List (String × HistEntry)) :
    List EnAuthor → List EnAuthor × List (ℕ × EnAuthor)
  | [] => ([], [])
  | a :: rest =>
    if hasGoodAffiliation a.affiliation then
      (a :: (categorize now hist rest).1, (categorize now hist rest).2)
    else if (should_search_author now a.name hist).1 then
      ((categorize now hist rest).1,
        ((if (should_search_author now a.name hist).2 = Reason.new_author
          then 0 else 1), a) :: (categorize now hist rest).2)
    else (a :: (categorize now hist rest).1, (categorize now hist rest).2)

/-- The search loop of enrich_affiliations: authors beyond the search cap
pass through unmodified (a truthy max_searches with performed at or above
it); otherwise one search attempt runs and the history entry is stored. -/
def searchLoop (net : Net) (now : Int) (maxSearches : Option ℕ) :
    List (ℕ × EnAuthor) → List (String × HistEntry) → ℕ →
    List EnAuthor × List (String × HistEntry) × ℕ
  | [], hist, performed => ([], hist, performed)
  | pa :: rest, hist, performed =>
    if (match maxSearches with
        | some m => if m = 0 then false else decide (m ≤ performed)
        | none => false) then
      (pa.2 :: (searchLoop net now maxSearches rest hist performed).1,
        (searchLoop net now maxSearches rest hist performed).2.1,
        (searchLoop net now maxSearches rest hist performed).2.2)
    else
      ((searchStep net now hist pa.2).1 ::
        (searchLoop net now maxSearches rest
          (setHistEntry hist pa.2.1 (searchStep net now hist pa.2).2) (performed + 1)).1,
        (searchLoop net now maxSearches rest
          (setHistEntry hist pa.2.1 (searchStep net now hist pa.2).2) (performed + 1)).2.1,
        (searchLoop net now maxSearches rest
          (setHistEntry hist pa.2.1 (searchStep net now hist pa.2).2) (performed + 1)).2.2)

/-- Shallow embedding of enrich_affiliations restricted to the linkage
core: categorize, stable-sort the search list by priority, return the input
unchanged when nothing is searchable (the early return), otherwise run the
search loop; the result is the enriched author list, the updated history
and the number of searches performed. -/
def enrich (net : Net) (now : Int) (maxSearches : Option ℕ)
    (authors : List EnAuthor) (history0 : List (String × HistEntry)) :
    List EnAuthor × List (String × HistEntry) × ℕ :=
  if pySort (fun p q => decide (p.1 < q.1)) (categorize now history0 authors).2 = [] then
    (authors, history0, 0)
  else
    ((categorize now history0 authors).1 ++
      (searchLoop net now maxSearches
        (pySort (fun p q => decide (p.1 < q.1)) (categorize now history0 authors).2)
        history0 0).1,
      (searchLoop net now maxSearches
        (pySort (fun p q => decide (p.1 < q.1)) (categorize now history0 authors).2)
        history0 0).2.1,
      (searchLoop net now maxSearches
        (pySort (fun p q => decide (p.1 < q.1)) (categorize now history0 authors).2)
        history0 0).2.2)

/-- Oracle whose two remote calls both fail with a network error
(the C9 witness scenario). -/
def c9Net : Net := ⟨fun _ => .error (), fun _ => .error ()⟩

/-- Oracle whose search succeeds with one matching hit but whose affiliation
fetch fails with a network error (the C9 witness scenario). -/
def c9Net2 : Net :=
  ⟨fun _ => .ok [⟨"Eve Nope", "x/pid/99/1"⟩], fun _ => .error ()⟩

/-- Concrete author processed in the C9 witness. -/
def c9Author : EnAuthor := ⟨"Eve Nope", ""⟩

end DBLP

/-! # Theorems -/

/-! ## Facts about the character primitives -/

theorem char_toNat_ofNat_valid (n : ℕ) (h : n < 55296) : (Char.ofNat n).toNat = n := by
  unfold Char.ofNat
  rw [dif_pos (Or.inl h)]
  simp [Char.ofNatAux, Char.toNat, UInt32.toNat, UInt32.ofNatCore]

theorem pyLower_toNat (c : Char) (h : 65 ≤ c.toNat ∧ c.toNat ≤ 90) :
    (pyLower c).toNat = c.toNat + 32 := by
  unfold pyLower
  rw [if_pos h]
  exact char_toNat_ofNat_valid _ (by omega)

theorem pyLower_eq_self (c : Char) (h : ¬ (65 ≤ c.toNat ∧ c.toNat ≤ 90)) :
    pyLower c = c := by
  unfold pyLower
  rw [if_neg h]

theorem pyLower_not_upper (c : Char) : ¬ (65 ≤ (pyLower c).toNat ∧ (pyLower c).toNat ≤ 90) := by
  by_cases h : 65 ≤ c.toNat ∧ c.toNat ≤ 90
  · rw [pyLower_toNat c h]; omega
  · rw [pyLower_eq_self c h]; exact h

theorem pyLower_pyLower (c : Char) : pyLower (pyLower c) = pyLower c :=
  pyLower_eq_self (pyLower c) (pyLower_not_upper c)

theorem pyIsSpace_pyLower (c : Char) : pyIsSpace (pyLower c) = pyIsSpace c := by
  by_cases h : 65 ≤ c.toNat ∧ c.toNat ≤ 90
  · have h1 := pyLower_toNat c h
    unfold pyIsSpace
    rw [h1, decide_eq_decide]
    omega
  · rw [pyLower_eq_self c h]

theorem pyIsAlnum_pyLower (c : Char) (h : pyIsAlnum c = true) : pyIsAlnum (pyLower c) = true := by
  by_cases hu : 65 ≤ c.toNat ∧ c.toNat ≤ 90
  · have h1 := pyLower_toNat c hu
    unfold pyIsAlnum
    rw [h1, decide_eq_true_eq]
    omega
  · rw [pyLower_eq_self c hu]; exact h

theorem pyLower_lt_128 (c : Char) (h : c.toNat < 128) : (pyLower c).toNat < 128 := by
  by_cases hu : 65 ≤ c.toNat ∧ c.toNat ≤ 90
  · rw [pyLower_toNat c hu]; omega
  · rw [pyLower_eq_self c hu]; exact h

theorem pyLowerFull_of_ascii (c : Char) (h : c.toNat < 128) :
    pyLowerFull c = [pyLower c] := by
  unfold pyLowerFull
  rw [if_neg (by omega)]

theorem flatMap_pyLowerFull_of_ascii (l : List Char) (h : ∀ c ∈ l, c.toNat < 128) :
    l.flatMap pyLowerFull = l.map pyLower := by
  induction l with
  | nil => rfl
  | cons a t ih =>
      rw [List.flatMap_cons, List.map_cons,
        pyLowerFull_of_ascii a (h a (List.mem_cons_self a t)),
        ih (fun c hc => h c (List.mem_cons_of_mem a hc)), List.singleton_append]

theorem pyStrip_subset (l : List Char) : ∀ c ∈ pyStrip l, c ∈ l := by
  intro c hc
  unfold pyStrip at hc
  rw [List.mem_reverse] at hc
  have h1 := List.dropWhile_subset (l := (List.dropWhile pyIsSpace l).reverse) pyIsSpace hc
  rw [List.mem_reverse] at h1
  exact List.dropWhile_subset pyIsSpace h1

theorem dropWhile_eq_self_of_headq (p : Char → Bool) (l : List Char)
    (h : ∀ c, l.head? = some c → p c = false) : l.dropWhile p = l := by
  cases l with
  | nil => rfl
  | cons a t =>
      have := h a rfl
      simp [List.dropWhile_cons, this]

theorem headq_dropWhile (p : Char → Bool) (l : List Char) (c : Char)
    (h : (l.dropWhile p).head? = some c) : p c = false := by
  induction l with
  | nil => simp [List.dropWhile] at h
  | cons a t ih =>
      rw [List.dropWhile_cons] at h
      by_cases hp : p a = true
      · rw [if_pos hp] at h
        exact ih h
      · rw [if_neg hp] at h
        simp only [List.head?_cons, Option.some_inj] at h
        subst h
        exact Bool.not_eq_true _ ▸ (by simpa using hp)

theorem pyStrip_idem (l : List Char) : pyStrip (pyStrip l) = pyStrip l := by
  unfold pyStrip
  generalize hA : l.dropWhile pyIsSpace = A
  generalize hB : A.reverse.dropWhile pyIsSpace = B
  -- the leading dropWhile on B.reverse is the identity: the head of
  -- B.reverse (when present) is also the head of A, and A is itself a
  -- dropWhile result, so its head fails the whitespace test
  have h1 : B.reverse.dropWhile pyIsSpace = B.reverse := by
    apply dropWhile_eq_self_of_headq
    intro c hc
    have hsuff : B <:+ A.reverse := hB ▸ List.dropWhile_suffix pyIsSpace
    obtain ⟨t, ht⟩ := hsuff
    have hA2 : A = B.reverse ++ t.reverse := by
      have h2 := congrArg List.reverse ht
      simpa [List.reverse_append] using h2.symm
    have hcA : A.head? = some c := by
      rw [hA2, List.head?_append, hc]
      rfl
    exact headq_dropWhile pyIsSpace l c (by rw [hA]; exact hcA)
  rw [h1, List.reverse_reverse]
  have h2 : B.dropWhile pyIsSpace = B := by
    rw [← hB]
    exact List.dropWhile_idempotent _ _
  rw [h2]

/-! ## Idempotence of the CSRankings normalizer on the ASCII fragment.
It fails on general Unicode input: U+0130 is alphanumeric and lowercases
to U+0069 U+0307, and the second pass drops the combining mark, which is
neither alphanumeric nor whitespace. -/

theorem normalize_name_idem (s : String) (hs : ∀ c ∈ s.data, c.toNat < 128) :
    CSRankings.normalize_name (CSRankings.normalize_name s) =
      CSRankings.normalize_name s := by
  unfold CSRankings.normalize_name
  apply String.ext
  simp only
  set p : Char → Bool := fun c => pyIsAlnum c || pyIsSpace c with hp
  have hflat : (s.data.filter p).flatMap pyLowerFull = (s.data.filter p).map pyLower :=
    flatMap_pyLowerFull_of_ascii _ (fun c hc => hs c (List.mem_of_mem_filter hc))
  rw [hflat]
  set L : List Char := pyStrip ((s.data.filter p).map pyLower) with hL
  have hmem : ∀ c ∈ L, p c = true ∧ pyLower c = c ∧ c.toNat < 128 := by
    intro c hc
    have h1 : c ∈ (s.data.filter p).map pyLower := pyStrip_subset _ c hc
    rw [List.mem_map] at h1
    obtain ⟨c0, hc0, rfl⟩ := h1
    have hpc0 : p c0 = true := List.of_mem_filter hc0
    refine ⟨?_, pyLower_pyLower c0, ?_⟩
    · rw [hp]
      simp only [Bool.or_eq_true]
      rw [hp] at hpc0
      simp only [Bool.or_eq_true] at hpc0
      rcases hpc0 with h | h
      · exact Or.inl (pyIsAlnum_pyLower c0 h)
      · rw [pyIsSpace_pyLower]; exact Or.inr h
    · exact pyLower_lt_128 c0 (hs c0 (List.mem_of_mem_filter hc0))
  have hfilter : L.filter p = L := List.filter_eq_self.mpr (fun a ha => (hmem a ha).1)
  have hflat2 : L.flatMap pyLowerFull = L.map pyLower :=
    flatMap_pyLowerFull_of_ascii _ (fun c hc => (hmem c hc).2.2)
  have hmap : L.map pyLower = L := by
    have := List.map_congr_left (l := L) (f := pyLower) (g := id)
      (fun a ha => (hmem a ha).2.1)
    rw [this, List.map_id]
  rw [hfilter, hflat2, hmap, pyStrip_idem]

/-! ## Claim C7 -/

/-- C7 counterexample: neither normalizer the claim cites is idempotent on
every input.  On "a 1234 5678" the first application of _normalize_name
strips the trailing " 5678" leaving "a 1234", and a second application
strips " 1234" as another DBLP suffix.  On "İ" (U+0130) the first
application of the CSRankings normalize_name keeps the alphanumeric
character and lowercases it to U+0069 U+0307, and the second application
drops the combining mark U+0307, which is neither alphanumeric nor
whitespace. -/
theorem C7_counterexample :
    ¬ (Rankings._normalize_name (Rankings._normalize_name "a 1234 5678") =
        Rankings._normalize_name "a 1234 5678")
    ∧ ¬ (CSRankings.normalize_name (CSRankings.normalize_name "İ") =
        CSRankings.normalize_name "İ") := by
  constructor
  · decide
  · decide

/-- C7 (amended): both normalizers fail idempotence in general (see the
counterexample); the CSRankings normalize_name is idempotent on every
string of ASCII characters, the range on which the embedded character
primitives agree with CPython exactly. -/
theorem C7_normalizer_idempotent (s : String) (hs : ∀ c ∈ s.data, c.toNat < 128) :
    CSRankings.normalize_name (CSRankings.normalize_name s) =
      CSRankings.normalize_name s :=
  normalize_name_idem s hs

/-- C7 witness: the amended idempotence theorem applied to a concrete
ASCII name with surrounding whitespace and punctuation. -/
theorem C7_normalizer_idempotent_witness :
    (∀ c ∈ "  John A. Smith  ".data, c.toNat < 128) ∧
    CSRankings.normalize_name (CSRankings.normalize_name "  John A. Smith  ") =
      CSRankings.normalize_name "  John A. Smith  " :=
  ⟨by decide, C7_normalizer_idempotent "  John A. Smith  " (by decide)⟩

/-! ## Claim C6 -/

/-- C6 counterexample: _normalize_name applies NFKD decomposition but never
drops the combining marks that decomposition produces, so it is not
insensitive to accent marks: the accented "José" and its unaccented form
"Jose" normalize to different keys. -/
theorem C6_counterexample :
    ¬ (Rankings._normalize_name "José" = Rankings._normalize_name "Jose") := by
  decide

/-- C6 (amended): the normalizer maps case and trailing-four-digit-suffix
variants of the same name to one key — normalize("Haibo Chen 0001") equals
normalize("haibo chen"), and likewise for a case variant — but after NFKD
decomposition the combining marks are retained, so an accented name does not
normalize to the same key as its unaccented form. -/
theorem C6_normalizer_variants :
    Rankings._normalize_name "Haibo Chen 0001" = Rankings._normalize_name "haibo chen"
    ∧ Rankings._normalize_name "Haibo CHEN" = Rankings._normalize_name "haibo chen"
    ∧ Rankings._normalize_name "José" ≠ Rankings._normalize_name "Jose" := by
  refine ⟨by decide, by decide, by decide⟩

/-! ## Claim C4 -/

theorem backoff_seconds_eq (n : ℕ) :
    ((DBLP.backoffDays n : Int)) * 86400 = min ((86400 : Int) * 2 ^ n) (30 * 86400) := by
  unfold DBLP.backoffDays DBLP.BACKOFF_DEFAULT DBLP.BACKOFF_MULTIPLIER DBLP.BACKOFF_MAX
  push_cast
  rw [one_mul, min_mul_of_nonneg _ _ (by norm_num : (0 : ℤ) ≤ 86400),
    mul_comm ((2 : ℤ) ^ n) 86400]
  norm_num

/-- C4: the scheduler is eligible immediately for a new author with reason
new_author; a found author is never eligible; an unsuccessful author with n
prior attempts is eligible iff now minus the last search timestamp is at
least min(1 day times 2 to the n, 30 days) in seconds; and the backoff
strictly increases with the attempt count until it reaches the 30-day cap,
where it plateaus. -/
theorem C4_scheduler_backoff :
    (∀ (now : Int) (name : String) (history : List (String × DBLP.HistEntry)),
      history.lookup name = none →
      DBLP.should_search_author now name history = (true, DBLP.Reason.new_author))
    ∧ (∀ (now : Int) (name : String) (history : List (String × DBLP.HistEntry))
        (e : DBLP.HistEntry), history.lookup name = some e → e.found = true →
      (DBLP.should_search_author now name history).1 = false)
    ∧ (∀ (now : Int) (name : String) (history : List (String × DBLP.HistEntry))
        (e : DBLP.HistEntry), history.lookup name = some e → e.found = false →
      ((DBLP.should_search_author now name history).1 = true ↔
        min ((86400 : Int) * 2 ^ e.attempt_count) (30 * 86400) ≤ now - e.last_search_ts))
    ∧ (∀ n : ℕ, DBLP.backoffDays n < DBLP.BACKOFF_MAX →
        DBLP.backoffDays n < DBLP.backoffDays (n + 1))
    ∧ (∀ n : ℕ, DBLP.backoffDays n ≤ DBLP.BACKOFF_MAX ∧
        (DBLP.backoffDays n = DBLP.BACKOFF_MAX →
          DBLP.backoffDays (n + 1) = DBLP.BACKOFF_MAX)) := by
  refine ⟨?_, ?_, ?_, ?_, ?_⟩
  · intro now name history h
    unfold DBLP.should_search_author
    rw [h]
  · intro now name history e h hf
    unfold DBLP.should_search_author
    rw [h]
    simp [hf]
  · intro now name history e h hf
    unfold DBLP.should_search_author
    rw [h]
    simp only [hf, Bool.false_eq_true, if_false]
    rw [← backoff_seconds_eq e.attempt_count]
    by_cases hle : ((DBLP.backoffDays e.attempt_count : Int)) * 86400 ≤ now - e.last_search_ts
    · simp [hle]
    · simp [hle]
  · intro n h
    unfold DBLP.backoffDays DBLP.BACKOFF_DEFAULT DBLP.BACKOFF_MULTIPLIER DBLP.BACKOFF_MAX at *
    simp only [one_mul] at *
    have hp : (2 : ℕ) ^ n < 30 := by
      by_contra hh
      push_neg at hh
      rw [min_eq_right hh] at h
      exact absurd h (lt_irrefl 30)
    rw [min_eq_left (le_of_lt hp)]
    exact lt_min (Nat.pow_lt_pow_succ (by norm_num)) hp
  · intro n
    unfold DBLP.backoffDays DBLP.BACKOFF_DEFAULT DBLP.BACKOFF_MULTIPLIER DBLP.BACKOFF_MAX
    simp only [one_mul]
    refine ⟨min_le_right _ _, ?_⟩
    intro h
    have h30 : 30 ≤ (2 : ℕ) ^ n := by
      by_contra hh
      push_neg at hh
      rw [min_eq_left (le_of_lt hh)] at h
      omega
    exact min_eq_right (le_trans h30 (Nat.pow_le_pow_right (by norm_num) (Nat.le_succ n)))

/-- C4 witness: the scheduler theorem applied at concrete inputs. -/
theorem C4_scheduler_backoff_witness :
    DBLP.should_search_author 0 "Ann" [] = (true, DBLP.Reason.new_author)
    ∧ (DBLP.should_search_author 999999 "Bob"
        [("Bob", DBLP.HistEntry.mk true 0 3)]).1 = false
    ∧ ((DBLP.should_search_author 86400 "Cal"
        [("Cal", DBLP.HistEntry.mk false 0 0)]).1 = true ↔
        min ((86400 : Int) * 2 ^ (0 : ℕ)) (30 * 86400) ≤ 86400 - 0)
    ∧ DBLP.backoffDays 3 < DBLP.backoffDays 4
    ∧ DBLP.backoffDays 6 = DBLP.BACKOFF_MAX := by
  refine ⟨C4_scheduler_backoff.1 0 "Ann" [] rfl,
    C4_scheduler_backoff.2.1 999999 "Bob" _ (DBLP.HistEntry.mk true 0 3) rfl rfl,
    C4_scheduler_backoff.2.2.1 86400 "Cal" _ (DBLP.HistEntry.mk false 0 0) rfl rfl,
    C4_scheduler_backoff.2.2.2.1 3 (by decide),
    (C4_scheduler_backoff.2.2.2.2 5).2 (by decide)⟩

/-! ## Claim C5 -/

/-- C5: the strict fuzzy matcher accepts equal normalized forms, and
otherwise accepts exactly when both token lists are non-empty, the last
tokens agree, and the first tokens are equal or one is a single character
that starts the other; together with the three concrete examples from the
specification. -/
theorem C5_fuzzy_matcher :
    (∀ q r : String,
      CSRankings.fuzzy_name_match q r = true ↔
        (CSRankings.normalize_name q = CSRankings.normalize_name r ∨
          ∃ q1 qs r1 rs,
            pySplit (CSRankings.normalize_name q).data = q1 :: qs ∧
            pySplit (CSRankings.normalize_name r).data = r1 :: rs ∧
            (q1 :: qs).getLast? = (r1 :: rs).getLast? ∧
            (q1 = r1 ∨ (q1.length = 1 ∧ startsWithTok r1 q1 = true) ∨
              (r1.length = 1 ∧ startsWithTok q1 r1 = true))))
    ∧ CSRankings.fuzzy_name_match "John Smith" "Jane Smith" = false
    ∧ CSRankings.fuzzy_name_match "J. Smith" "John Smith" = true
    ∧ CSRankings.fuzzy_name_match "John Smith" "John Doe" = false := by
  refine ⟨?_, by decide, by decide, by decide⟩
  intro q r
  unfold CSRankings.fuzzy_name_match
  simp only
  by_cases he : (CSRankings.normalize_name q).data = (CSRankings.normalize_name r).data
  · have hs : CSRankings.normalize_name q = CSRankings.normalize_name r := String.ext he
    simp [he, hs]
  · have hne : ¬ (CSRankings.normalize_name q = CSRankings.normalize_name r) :=
      fun hh => he (by rw [hh])
    rw [if_neg he]
    cases hq : pySplit (CSRankings.normalize_name q).data with
    | nil => simp [hne]
    | cons q1 qs =>
      cases hr : pySplit (CSRankings.normalize_name r).data with
      | nil => simp [hne]
      | cons r1 rs =>
        simp only
        by_cases h1 : (q1 :: qs).getLast? = (r1 :: rs).getLast?
        · rw [if_neg (by simp [h1])]
          by_cases h2 : q1 = r1
          · rw [if_pos h2]
            simp only [true_iff]
            exact Or.inr ⟨q1, qs, r1, rs, rfl, rfl, h1, Or.inl h2⟩
          · rw [if_neg h2]
            by_cases h3 : ((q1.length = 1 && startsWithTok r1 q1) ||
                (r1.length = 1 && startsWithTok q1 r1)) = true
            · rw [if_pos h3]
              simp only [true_iff]
              refine Or.inr ⟨q1, qs, r1, rs, rfl, rfl, h1, Or.inr ?_⟩
              simp only [Bool.or_eq_true, Bool.and_eq_true, decide_eq_true_eq] at h3
              rcases h3 with ⟨ha, hb⟩ | ⟨ha, hb⟩
              · exact Or.inl ⟨ha, hb⟩
              · exact Or.inr ⟨ha, hb⟩
            · rw [if_neg h3]
              simp only [Bool.false_eq_true, false_iff]
              rintro (hc | ⟨q1', qs', r1', rs', hq', hr', hl', hfst⟩)
              · exact hne hc
              · obtain ⟨rfl, rfl⟩ : q1' = q1 ∧ qs' = qs := by
                  have := hq'.symm
                  exact ⟨(List.cons.injEq _ _ _ _ ▸ this).1, (List.cons.injEq _ _ _ _ ▸ this).2⟩
                obtain ⟨rfl, rfl⟩ : r1' = r1 ∧ rs' = rs := by
                  have := hr'.symm
                  exact ⟨(List.cons.injEq _ _ _ _ ▸ this).1, (List.cons.injEq _ _ _ _ ▸ this).2⟩
                rcases hfst with hf | ⟨ha, hb⟩ | ⟨ha, hb⟩
                · exact h2 hf
                · exact h3 (by simp [ha, hb])
                · exact h3 (by simp [ha, hb])
        · rw [if_pos h1]
          simp only [Bool.false_eq_true, false_iff]
          rintro (hc | ⟨q1', qs', r1', rs', hq', hr', hl', hfst⟩)
          · exact hne hc
          · obtain ⟨rfl, rfl⟩ : q1' = q1 ∧ qs' = qs := by
              have := hq'.symm
              exact ⟨(List.cons.injEq _ _ _ _ ▸ this).1, (List.cons.injEq _ _ _ _ ▸ this).2⟩
            obtain ⟨rfl, rfl⟩ : r1' = r1 ∧ rs' = rs := by
              have := hr'.symm
              exact ⟨(List.cons.injEq _ _ _ _ ▸ this).1, (List.cons.injEq _ _ _ _ ▸ this).2⟩
            exact h1 hl'

/-! ## Generic facts about the insertion sort -/

theorem pyInsert_perm {α : Type} (lt : α → α → Bool) (p : α) (l : List α) :
    (pyInsert lt p l).Perm (p :: l) := by
  induction l with
  | nil => exact List.Perm.refl _
  | cons q qs ih =>
      unfold pyInsert
      by_cases h : lt p q = true
      · rw [if_pos h]
      · rw [if_neg h]
        exact (List.Perm.cons q ih).trans (List.Perm.swap p q qs)

theorem pySort_aux_perm {α : Type} (lt : α → α → Bool) :
    ∀ (l acc : List α), (l.foldl (fun acc p => pyInsert lt p acc) acc).Perm (acc ++ l) := by
  intro l
  induction l with
  | nil => intro acc; simp
  | cons p t ih =>
      intro acc
      have h1 := ih (pyInsert lt p acc)
      have h2 : (pyInsert lt p acc ++ t).Perm ((p :: acc) ++ t) :=
        (pyInsert_perm lt p acc).append_right t
      have h3 : ((p :: acc) ++ t).Perm (acc ++ p :: t) := by
        simpa using List.perm_middle.symm
      exact (h1.trans h2).trans h3

theorem pySort_perm {α : Type} (lt : α → α → Bool) (l : List α) :
    (pySort lt l).Perm l := by
  simpa using pySort_aux_perm lt l []

theorem mem_pyInsert {α : Type} (lt : α → α → Bool) (p x : α) (l : List α) :
    x ∈ pyInsert lt p l ↔ x = p ∨ x ∈ l := by
  rw [(pyInsert_perm lt p l).mem_iff]
  simp

theorem pyInsert_pairwise {α : Type} {R : α → α → Prop} (lt : α → α → Bool)
    (htrans : ∀ a b c, R a b → R b c → R a c)
    (hconn : ∀ a b, lt a b = true → R a b)
    (hneg : ∀ a b, lt a b = false → R b a)
    (p : α) (l : List α) (hl : l.Pairwise R) : (pyInsert lt p l).Pairwise R := by
  induction l with
  | nil => simp [pyInsert]
  | cons q qs ih =>
      rw [List.pairwise_cons] at hl
      obtain ⟨hq, hqs⟩ := hl
      unfold pyInsert
      by_cases h : lt p q = true
      · rw [if_pos h]
        refine List.Pairwise.cons ?_ (List.Pairwise.cons hq hqs)
        intro x hx
        rcases List.mem_cons.mp hx with rfl | hx
        · exact hconn p x h
        · exact htrans p q x (hconn p q h) (hq x hx)
      · rw [if_neg h]
        refine List.Pairwise.cons ?_ (ih hqs)
        intro x hx
        rcases (mem_pyInsert lt p x qs).mp hx with rfl | hx
        · exact hneg x q (by simpa using h)
        · exact hq x hx

theorem pySort_pairwise {α : Type} {R : α → α → Prop} (lt : α → α → Bool)
    (htrans : ∀ a b c, R a b → R b c → R a c)
    (hconn : ∀ a b, lt a b = true → R a b)
    (hneg : ∀ a b, lt a b = false → R b a)
    (l : List α) : (pySort lt l).Pairwise R := by
  have haux : ∀ (t acc : List α), acc.Pairwise R →
      (t.foldl (fun acc p => pyInsert lt p acc) acc).Pairwise R := by
    intro t
    induction t with
    | nil => intro acc h; exact h
    | cons p tt ih =>
        intro acc h
        exact ih _ (pyInsert_pairwise lt htrans hconn hneg p acc h)
  exact haux l [] (by simp)

/-! ## Facts about the lexicographic string order -/

theorem lexLt_irrefl (l : List Char) : Rankings.lexLt l l = false := by
  induction l with
  | nil => rfl
  | cons a as ih =>
      unfold Rankings.lexLt
      rw [if_neg (lt_irrefl a), if_neg (lt_irrefl a)]
      exact ih

theorem lexLt_trans (a b c : List Char) (h1 : Rankings.lexLt a b = true)
    (h2 : Rankings.lexLt b c = true) : Rankings.lexLt a c = true := by
  induction a generalizing b c with
  | nil =>
      cases b with
      | nil => exact absurd h1 (by simp [Rankings.lexLt])
      | cons y ys =>
          cases c with
          | nil => exact absurd h2 (by simp [Rankings.lexLt])
          | cons z zs => rfl
  | cons x xs ih =>
      cases b with
      | nil => exact absurd h1 (by simp [Rankings.lexLt])
      | cons y ys =>
          cases c with
          | nil => exact absurd h2 (by simp [Rankings.lexLt])
          | cons z zs =>
              unfold Rankings.lexLt at h1 h2 ⊢
              by_cases hxy : x < y
              · by_cases hyz : y < z
                · rw [if_pos (lt_trans hxy hyz)]
                · rw [if_neg hyz] at h2
                  by_cases hzy : z < y
                  · rw [if_pos hzy] at h2; exact absurd h2 (by simp)
                  · have hyzeq : y = z := le_antisymm (not_lt.mp hzy) (not_lt.mp hyz)
                    rw [if_pos (hyzeq ▸ hxy)]
              · rw [if_neg hxy] at h1
                by_cases hyx : y < x
                · rw [if_pos hyx] at h1; exact absurd h1 (by simp)
                · have hxyeq : x = y := le_antisymm (not_lt.mp hyx) (not_lt.mp hxy)
                  rw [if_neg hyx] at h1
                  by_cases hyz : y < z
                  · rw [if_pos (hxyeq ▸ hyz)]
                  · rw [if_neg hyz] at h2
                    by_cases hzy : z < y
                    · rw [if_pos hzy] at h2; exact absurd h2 (by simp)
                    · rw [if_neg hzy] at h2
                      rw [if_neg (hxyeq ▸ hyz), if_neg (hxyeq ▸ hzy)]
                      exact ih ys zs h1 h2

theorem lexLt_trichotomy (a b : List Char) :
    Rankings.lexLt a b = true ∨ a = b ∨ Rankings.lexLt b a = true := by
  induction a generalizing b with
  | nil =>
      cases b with
      | nil => exact Or.inr (Or.inl rfl)
      | cons y ys => exact Or.inl rfl
  | cons x xs ih =>
      cases b with
      | nil => exact Or.inr (Or.inr rfl)
      | cons y ys =>
          rcases lt_trichotomy x y with hxy | hxy | hxy
          · refine Or.inl ?_
            unfold Rankings.lexLt
            rw [if_pos hxy]
          · subst hxy
            rcases ih ys with h | h | h
            · refine Or.inl ?_
              unfold Rankings.lexLt
              rw [if_neg (lt_irrefl x), if_neg (lt_irrefl x)]
              exact h
            · exact Or.inr (Or.inl (by rw [h]))
            · refine Or.inr (Or.inr ?_)
              unfold Rankings.lexLt
              rw [if_neg (lt_irrefl x), if_neg (lt_irrefl x)]
              exact h
          · refine Or.inr (Or.inr ?_)
            unfold Rankings.lexLt
            rw [if_pos hxy]

theorem lexLt_asymm (a b : List Char) (h : Rankings.lexLt a b = true) :
    Rankings.lexLt b a = false := by
  by_contra hh
  have h2 : Rankings.lexLt b a = true := by
    cases hba : Rankings.lexLt b a
    · exact absurd hba hh
    · rfl
  have := lexLt_trans a b a h h2
  rw [lexLt_irrefl] at this
  exact absurd this (by simp)

theorem lexLt_neg_trans (a b c : List Char) (h1 : Rankings.lexLt b a = false)
    (h2 : Rankings.lexLt c b = false) : Rankings.lexLt c a = false := by
  by_contra hh
  have hca : Rankings.lexLt c a = true := by
    cases h : Rankings.lexLt c a
    · exact absurd h hh
    · rfl
  rcases lexLt_trichotomy a b with hab | rfl | hba
  · rcases lexLt_trichotomy b c with hbc | rfl | hcb
    · have hac := lexLt_trans a b c hab hbc
      have h3 := lexLt_trans c a c hca hac
      rw [lexLt_irrefl] at h3
      exact absurd h3 (by simp)
    · rw [h1] at hca
      exact absurd hca (by simp)
    · rw [h2] at hcb
      exact absurd hcb (by simp)
  · rw [h2] at hca
    exact absurd hca (by simp)
  · rw [h1] at hba
    exact absurd hba (by simp)

/-! ## Facts about the entry sort key -/

theorem sortKeyLt_iff (e f : Rankings.CombinedEntry) :
    Rankings.sortKeyLt e f = true ↔
      (f.combined_score < e.combined_score ∨ (f.combined_score = e.combined_score ∧
        (f.artifacts < e.artifacts ∨ (f.artifacts = e.artifacts ∧
          Rankings.lexLt e.name.data f.name.data = true)))) := by
  unfold Rankings.sortKeyLt
  split_ifs with h1 h2 h3 h4
  · simp only [true_iff]
    exact Or.inl (by omega)
  · simp only [Bool.false_eq_true, false_iff]
    rintro (h | ⟨he, _⟩) <;> omega
  · simp only [true_iff]
    exact Or.inr ⟨by omega, Or.inl (by omega)⟩
  · simp only [Bool.false_eq_true, false_iff]
    rintro (h | ⟨he, h | ⟨ha, _⟩⟩) <;> omega
  · constructor
    · intro h
      exact Or.inr ⟨by omega, Or.inr ⟨by omega, h⟩⟩
    · rintro (h | ⟨he, h | ⟨ha, h⟩⟩)
      · omega
      · omega
      · exact h

theorem sortKeyLt_eq_false_iff (e f : Rankings.CombinedEntry) :
    Rankings.sortKeyLt e f = false ↔
      (e.combined_score < f.combined_score ∨ (e.combined_score = f.combined_score ∧
        (e.artifacts < f.artifacts ∨ (e.artifacts = f.artifacts ∧
          Rankings.lexLt e.name.data f.name.data = false)))) := by
  rw [← Bool.not_eq_true, sortKeyLt_iff]
  constructor
  · intro h
    by_cases h1 : e.combined_score < f.combined_score
    · exact Or.inl h1
    · have he : e.combined_score = f.combined_score := by
        by_contra hh
        exact h (Or.inl (by omega))
      refine Or.inr ⟨he, ?_⟩
      by_cases h2 : e.artifacts < f.artifacts
      · exact Or.inl h2
      · have ha : e.artifacts = f.artifacts := by
          by_contra hh
          exact h (Or.inr ⟨by omega, Or.inl (by omega)⟩)
        refine Or.inr ⟨ha, ?_⟩
        cases hlex : Rankings.lexLt e.name.data f.name.data
        · rfl
        · exact absurd (Or.inr ⟨by omega, Or.inr ⟨by omega, hlex⟩⟩) h
  · rintro (h | ⟨he, h | ⟨ha, h⟩⟩) <;>
      rintro (hc | ⟨hce, hc | ⟨hca, hc⟩⟩) <;>
      first
        | omega
        | (rw [h] at hc; exact absurd hc (by simp))

theorem sortKeyLt_asymm (e f : Rankings.CombinedEntry)
    (h : Rankings.sortKeyLt e f = true) : Rankings.sortKeyLt f e = false := by
  rw [sortKeyLt_eq_false_iff]
  rcases (sortKeyLt_iff e f).mp h with h1 | ⟨he, h1 | ⟨ha, h1⟩⟩
  · exact Or.inl h1
  · exact Or.inr ⟨by omega, Or.inl h1⟩
  · exact Or.inr ⟨by omega, Or.inr ⟨by omega, lexLt_asymm _ _ h1⟩⟩

theorem sortKeyLt_le_trans (a b c : Rankings.CombinedEntry)
    (h1 : Rankings.sortKeyLt b a = false) (h2 : Rankings.sortKeyLt c b = false) :
    Rankings.sortKeyLt c a = false := by
  rw [sortKeyLt_eq_false_iff] at h1 h2 ⊢
  rcases h1 with h1 | ⟨he1, h1 | ⟨ha1, h1⟩⟩ <;>
    rcases h2 with h2 | ⟨he2, h2 | ⟨ha2, h2⟩⟩
  · exact Or.inl (by omega)
  · exact Or.inl (by omega)
  · exact Or.inl (by omega)
  · exact Or.inl (by omega)
  · exact Or.inr ⟨by omega, Or.inl (by omega)⟩
  · exact Or.inr ⟨by omega, Or.inl (by omega)⟩
  · exact Or.inl (by omega)
  · exact Or.inr ⟨by omega, Or.inl (by omega)⟩
  · exact Or.inr ⟨by omega, Or.inr ⟨by omega, lexLt_neg_trans _ _ _ h1 h2⟩⟩

/-! ## Facts about the rank assignment -/

theorem rkAux_length (l : List Int) : ∀ (prev : Int) (pr pos : ℕ),
    (Rankings.rkAux prev pr pos l).length = l.length := by
  induction l with
  | nil => intro prev pr pos; rfl
  | cons s t ih =>
      intro prev pr pos
      unfold Rankings.rkAux
      simp [ih]

theorem pyRanks_length (l : List Int) : (Rankings.pyRanks l).length = l.length := by
  cases l with
  | nil => rfl
  | cons s t =>
      unfold Rankings.pyRanks
      simp [rkAux_length]

theorem rkAux_head (s : Int) (t : List Int) (prev : Int) (pr pos : ℕ) :
    (Rankings.rkAux prev pr pos (s :: t)).head? =
      some (if s < prev then pos else pr) := by
  unfold Rankings.rkAux
  rfl

theorem rkAux_adjacent (l : List Int) : ∀ (prev : Int) (pr pos : ℕ) (j : ℕ)
    (a b : Int) (r : ℕ), l[j + 1]? = some a → l[j]? = some b →
    (Rankings.rkAux prev pr pos l)[j]? = some r →
    (Rankings.rkAux prev pr pos l)[j + 1]? =
      some (if a < b then pos + (j + 1) else r) := by
  induction l with
  | nil => intro prev pr pos j a b r ha; simp at ha
  | cons s t ih =>
      intro prev pr pos j a b r ha hb hr
      have hunf : Rankings.rkAux prev pr pos (s :: t) =
          (if s < prev then pos else pr) ::
            Rankings.rkAux s (if s < prev then pos else pr) (pos + 1) t := by
        conv_lhs => unfold Rankings.rkAux
      cases j with
      | zero =>
          simp only [List.getElem?_cons_succ, List.getElem?_cons_zero,
            Option.some_inj] at ha hb
          rw [hunf] at hr ⊢
          simp only [List.getElem?_cons_zero, Option.some_inj] at hr
          simp only [List.getElem?_cons_succ]
          cases t with
          | nil => simp at ha
          | cons s2 t2 =>
              simp only [List.getElem?_cons_zero, Option.some_inj] at ha
              have hunf2 : Rankings.rkAux s (if s < prev then pos else pr) (pos + 1)
                  (s2 :: t2) =
                  (if s2 < s then pos + 1 else (if s < prev then pos else pr)) ::
                    Rankings.rkAux s2
                      (if s2 < s then pos + 1 else (if s < prev then pos else pr))
                      (pos + 1 + 1) t2 := by
                conv_lhs => unfold Rankings.rkAux
              rw [hunf2]
              simp only [List.getElem?_cons_zero, Option.some_inj]
              rw [← ha, ← hb, ← hr]
      | succ jj =>
          rw [hunf] at hr ⊢
          simp only [List.getElem?_cons_succ] at ha hb hr ⊢
          have := ih s (if s < prev then pos else pr) (pos + 1) jj a b r ha hb hr
          rw [this]
          have harith : pos + 1 + (jj + 1) = pos + (jj + 1 + 1) := by omega
          rw [harith]

theorem pyRanks_headq (s : Int) (t : List Int) :
    (Rankings.pyRanks (s :: t))[0]? = some 1 := by
  simp [Rankings.pyRanks]

theorem pyRanks_adjacent (l : List Int) (j : ℕ) (a b : Int) (r : ℕ)
    (ha : l[j + 1]? = some a) (hb : l[j]? = some b)
    (hr : (Rankings.pyRanks l)[j]? = some r) :
    (Rankings.pyRanks l)[j + 1]? = some (if a < b then j + 2 else r) := by
  cases l with
  | nil => simp at ha
  | cons s t =>
      have hp : Rankings.pyRanks (s :: t) = 1 :: Rankings.rkAux s 1 2 t := rfl
      cases j with
      | zero =>
          simp only [List.getElem?_cons_succ, List.getElem?_cons_zero,
            Option.some_inj] at ha hb
          rw [hp] at hr ⊢
          simp only [List.getElem?_cons_zero, Option.some_inj] at hr
          simp only [List.getElem?_cons_succ]
          cases t with
          | nil => simp at ha
          | cons s2 t2 =>
              simp only [List.getElem?_cons_zero, Option.some_inj] at ha
              have hunf2 : Rankings.rkAux s 1 2 (s2 :: t2) =
                  (if s2 < s then 2 else 1) ::
                    Rankings.rkAux s2 (if s2 < s then 2 else 1) 3 t2 := by
                conv_lhs => unfold Rankings.rkAux
              rw [hunf2]
              simp only [List.getElem?_cons_zero, Option.some_inj]
              rw [← ha, ← hb, ← hr]
      | succ jj =>
          rw [hp] at hr ⊢
          simp only [List.getElem?_cons_succ] at ha hb hr ⊢
          have := rkAux_adjacent t s 1 2 jj a b r ha hb hr
          rw [this]
          have harith : 2 + (jj + 1) = jj + 1 + 2 := by omega
          rw [harith]

/-! ## Ranked zip lemmas -/

theorem getElemq_zip {α β : Type} : ∀ (l : List α) (m : List β) (i : ℕ),
    (l.zip m)[i]? = l[i]?.bind (fun a => m[i]?.map (fun b => (a, b))) := by
  intro l
  induction l with
  | nil => intro m i; simp
  | cons a t ih =>
      intro m i
      cases m with
      | nil => simp
      | cons b mt =>
          cases i with
          | zero => simp [List.zip_cons_cons]
          | succ j => simp [List.zip_cons_cons, ih]

theorem rankSpec_zip (es : List Rankings.CombinedEntry) :
    rankSpecOf (es.zip (Rankings.pyRanks (es.map (fun e => e.combined_score)))) := by
  constructor
  · intro p hp
    cases es with
    | nil => simp [Rankings.pyRanks] at hp
    | cons e t =>
        rw [getElemq_zip] at hp
        simp only [List.map_cons] at hp
        rw [pyRanks_headq] at hp
        simp only [List.getElem?_cons_zero, Option.bind_eq_bind, Option.some_bind,
          Option.map_some', Option.some_inj] at hp
        rw [← hp]
  · intro j p q hp hq
    rw [getElemq_zip] at hp hq
    cases hej : es[j]? with
    | none => rw [hej] at hp; simp at hp
    | some ej =>
        cases hrj : (Rankings.pyRanks (es.map (fun e => e.combined_score)))[j]? with
        | none => rw [hej, hrj] at hp; simp at hp
        | some rj =>
            rw [hej, hrj] at hp
            simp only [Option.bind_eq_bind, Option.some_bind, Option.map_some',
              Option.some_inj] at hp
            cases hej1 : es[j + 1]? with
            | none => rw [hej1] at hq; simp at hq
            | some ej1 =>
                cases hrj1 : (Rankings.pyRanks (es.map (fun e => e.combined_score)))[j + 1]? with
                | none => rw [hej1, hrj1] at hq; simp at hq
                | some rj1 =>
                    rw [hej1, hrj1] at hq
                    simp only [Option.bind_eq_bind, Option.some_bind, Option.map_some',
                      Option.some_inj] at hq
                    have hmj : (es.map (fun e => e.combined_score))[j]? =
                        some ej.combined_score := by
                      rw [List.getElem?_map, hej]
                      rfl
                    have hmj1 : (es.map (fun e => e.combined_score))[j + 1]? =
                        some ej1.combined_score := by
                      rw [List.getElem?_map, hej1]
                      rfl
                    have hadj := pyRanks_adjacent (es.map (fun e => e.combined_score)) j
                      ej1.combined_score ej.combined_score rj hmj1 hmj hrj
                    rw [hrj1] at hadj
                    simp only [Option.some_inj] at hadj
                    rw [← hp, ← hq]
                    constructor
                    · intro hlt
                      simp only
                      rw [hadj, if_pos hlt]
                    · intro heq
                      have heq2 : ej1.combined_score = ej.combined_score := heq
                      simp only
                      rw [hadj, if_neg (by omega)]

/-! ## Sortedness of the merge output -/

theorem pySort_entries_pairwise (l : List Rankings.CombinedEntry) :
    (pySort Rankings.sortKeyLt l).Pairwise
      (fun e f => Rankings.sortKeyLt f e = false) :=
  pySort_pairwise Rankings.sortKeyLt
    (fun a b c h1 h2 => sortKeyLt_le_trans a b c h1 h2)
    (fun a b h => sortKeyLt_asymm a b h)
    (fun _ _ h => h)
    l

theorem sorted_rel_of_le (e f : Rankings.CombinedEntry)
    (h : Rankings.sortKeyLt f e = false) :
    f.combined_score < e.combined_score ∨
      (f.combined_score = e.combined_score ∧ (f.artifacts < e.artifacts ∨
        (f.artifacts = e.artifacts ∧
          (Rankings.lexLt e.name.data f.name.data = true ∨ e.name = f.name)))) := by
  rw [sortKeyLt_eq_false_iff] at h
  rcases h with h | ⟨he, h | ⟨ha, h⟩⟩
  · exact Or.inl h
  · exact Or.inr ⟨he, Or.inl h⟩
  · refine Or.inr ⟨he, Or.inr ⟨ha, ?_⟩⟩
    rcases lexLt_trichotomy e.name.data f.name.data with hl | hl | hl
    · exact Or.inl hl
    · exact Or.inr (String.ext hl)
    · rw [h] at hl
      exact absurd hl (by simp)

theorem merge_map_fst (authors : List Rankings.AuthorRecord)
    (members : List Rankings.MemberRecord) :
    (Rankings._merge_rankings authors members).map Prod.fst =
      pySort Rankings.sortKeyLt
        (authors.map (Rankings.authorEntry authors members) ++
          ((Rankings.member_by_norm members).filter
            (fun p => ¬ Rankings.linkedAe authors members p.1)).map
              (fun p => Rankings.standaloneMemberEntry p.2)) := by
  apply List.map_fst_zip
  rw [pyRanks_length, List.length_map]

/-! ## Claim C2 -/

/-- C2: the merge output is sorted by combined_score descending with ties
broken by artifacts descending and then name ascending; ranks are dense and
tie-aware (first rank 1, a strict score drop takes its one-based position,
an equal score shares the predecessor rank); the same rank property holds
after filtering to combined_score at least 3 and re-ranking; and the scores
[10,10,7,5,5,5] receive ranks [1,1,3,4,4,4]. -/
theorem C2_sort_and_rank :
    (∀ (authors : List Rankings.AuthorRecord) (members : List Rankings.MemberRecord),
      ((Rankings._merge_rankings authors members).map Prod.fst).Pairwise
        (fun e f => f.combined_score < e.combined_score ∨
          (f.combined_score = e.combined_score ∧ (f.artifacts < e.artifacts ∨
            (f.artifacts = e.artifacts ∧
              (Rankings.lexLt e.name.data f.name.data = true ∨ e.name = f.name))))))
    ∧ (∀ (authors : List Rankings.AuthorRecord) (members : List Rankings.MemberRecord),
        rankSpecOf (Rankings._merge_rankings authors members))
    ∧ (∀ (authors : List Rankings.AuthorRecord) (members : List Rankings.MemberRecord),
        rankSpecOf (Rankings.filterRerank (Rankings._merge_rankings authors members)))
    ∧ Rankings.pyRanks [10, 10, 7, 5, 5, 5] = [1, 1, 3, 4, 4, 4] := by
  refine ⟨?_, ?_, ?_, by decide⟩
  · intro authors members
    rw [merge_map_fst]
    exact (pySort_entries_pairwise _).imp (fun h => sorted_rel_of_le _ _ h)
  · intro authors members
    exact rankSpec_zip _
  · intro authors members
    exact rankSpec_zip _

/-- C2 witness: the rank theorem applied to a concrete two-author merge. -/
theorem C2_sort_and_rank_witness :
    ((Rankings.soloEntry c2wAuthorLo, 2) : Rankings.CombinedEntry × ℕ).2 = 0 + 2
    ∧ ((Rankings.soloEntry c2wAuthorHi, 1) : Rankings.CombinedEntry × ℕ).2 = 1 := by
  constructor
  · exact ((C2_sort_and_rank.2.1 [c2wAuthorHi, c2wAuthorLo] []).2 0
      (Rankings.soloEntry c2wAuthorHi, 1) (Rankings.soloEntry c2wAuthorLo, 2)
      (by decide) (by decide)).1 (by decide)
  · exact (C2_sort_and_rank.2.1 [c2wAuthorHi, c2wAuthorLo] []).1
      (Rankings.soloEntry c2wAuthorHi, 1) (by decide)

/-! ## Claim C3 -/

theorem mem_merge_entry_built (authors : List Rankings.AuthorRecord)
    (members : List Rankings.MemberRecord) (p : Rankings.CombinedEntry × ℕ)
    (hp : p ∈ Rankings._merge_rankings authors members) :
    p.1.combined_score = p.1.artifact_score + p.1.ae_score := by
  obtain ⟨e, r⟩ := p
  simp only [Rankings._merge_rankings, Rankings.attachRanks] at hp
  have he := (List.of_mem_zip hp).1
  rw [(pySort_perm _ _).mem_iff] at he
  rcases List.mem_append.mp he with hA | hM
  · obtain ⟨a, _, rfl⟩ := List.mem_map.mp hA
    show (Rankings.authorEntry authors members a).combined_score = _
    unfold Rankings.authorEntry
    by_cases hw : Rankings.isWinner authors members a
    · rw [if_pos hw]
      cases hl : (Rankings.member_by_norm members).lookup (Rankings._normalize_name a.name) with
      | some m => rfl
      | none => rfl
    · rw [if_neg hw]
      rfl
  · obtain ⟨pm, _, rfl⟩ := List.mem_map.mp hM
    rfl

/-- C3: every combined entry built by the merge satisfies the scoring
contract: artifact_score = artifacts + functional + reproducible badges,
ae_score = 3 memberships + 2 chairs, combined_score is their sum; on the
specification example the scores are 4, 5 and 9; and both sub-scores are
non-negative for non-negative inputs. -/
theorem C3_scoring :
    (∀ (name affiliation : String) (artifacts total_papers : Int) (artifact_rate : ℚ)
        (ae_memberships chair_count : Int) (conferences : List String)
        (years : List (Int × Int)) (ba bf br : Int),
      (Rankings._build_entry name affiliation artifacts total_papers artifact_rate
          ae_memberships chair_count conferences years ba bf br).artifact_score =
        artifacts * 1 + bf * 1 + br * 1
      ∧ (Rankings._build_entry name affiliation artifacts total_papers artifact_rate
          ae_memberships chair_count conferences years ba bf br).ae_score =
        ae_memberships * 3 + chair_count * 2
      ∧ (Rankings._build_entry name affiliation artifacts total_papers artifact_rate
          ae_memberships chair_count conferences years ba bf br).combined_score =
        (Rankings._build_entry name affiliation artifacts total_papers artifact_rate
          ae_memberships chair_count conferences years ba bf br).artifact_score +
        (Rankings._build_entry name affiliation artifacts total_papers artifact_rate
          ae_memberships chair_count conferences years ba bf br).ae_score
      ∧ (0 ≤ artifacts → 0 ≤ bf → 0 ≤ br → 0 ≤ ae_memberships → 0 ≤ chair_count →
          0 ≤ (Rankings._build_entry name affiliation artifacts total_papers artifact_rate
            ae_memberships chair_count conferences years ba bf br).artifact_score
          ∧ 0 ≤ (Rankings._build_entry name affiliation artifacts total_papers artifact_rate
            ae_memberships chair_count conferences years ba bf br).ae_score))
    ∧ ((Rankings._build_entry "n" "a" 2 0 0 1 1 [] [] 0 1 1).artifact_score = 4
      ∧ (Rankings._build_entry "n" "a" 2 0 0 1 1 [] [] 0 1 1).ae_score = 5
      ∧ (Rankings._build_entry "n" "a" 2 0 0 1 1 [] [] 0 1 1).combined_score = 9)
    ∧ (∀ (authors : List Rankings.AuthorRecord) (members : List Rankings.MemberRecord)
        (p : Rankings.CombinedEntry × ℕ), p ∈ Rankings._merge_rankings authors members →
        p.1.combined_score = p.1.artifact_score + p.1.ae_score) := by
  refine ⟨?_, by decide, ?_⟩
  · intro name affiliation artifacts total_papers artifact_rate ae_memberships
      chair_count conferences years ba bf br
    refine ⟨?_, ?_, rfl, ?_⟩
    · show artifacts * Rankings.W_AVAILABLE + bf * Rankings.W_FUNCTIONAL
        + br * Rankings.W_REPRODUCIBLE = artifacts * 1 + bf * 1 + br * 1
      rfl
    · rfl
    · intro h1 h2 h3 h4 h5
      constructor
      · show 0 ≤ artifacts * Rankings.W_AVAILABLE + bf * Rankings.W_FUNCTIONAL
          + br * Rankings.W_REPRODUCIBLE
        unfold Rankings.W_AVAILABLE Rankings.W_FUNCTIONAL Rankings.W_REPRODUCIBLE
        omega
      · show 0 ≤ ae_memberships * Rankings.W_AE_MEMBERSHIP
          + chair_count * Rankings.W_AE_CHAIR
        unfold Rankings.W_AE_MEMBERSHIP Rankings.W_AE_CHAIR
        omega
  · intro authors members p hp
    exact mem_merge_entry_built authors members p hp

/-- C3 witness: the scoring theorem applied at concrete inputs. -/
theorem C3_scoring_witness :
    (0 ≤ (Rankings._build_entry "n" "aff" 2 0 0 1 1 [] [] 0 1 1).artifact_score
      ∧ 0 ≤ (Rankings._build_entry "n" "aff" 2 0 0 1 1 [] [] 0 1 1).ae_score)
    ∧ ((Rankings.soloEntry c3wAuthor, 1) : Rankings.CombinedEntry × ℕ).1.combined_score =
        ((Rankings.soloEntry c3wAuthor, 1) : Rankings.CombinedEntry × ℕ).1.artifact_score +
        ((Rankings.soloEntry c3wAuthor, 1) : Rankings.CombinedEntry × ℕ).1.ae_score := by
  constructor
  · exact (C3_scoring.1 "n" "aff" 2 0 0 1 1 [] [] 0 1 1).2.2.2
      (by decide) (by decide) (by decide) (by decide) (by decide)
  · exact C3_scoring.2.2 [c3wAuthor] [] (Rankings.soloEntry c3wAuthor, 1) (by decide)

/-! ## Facts about the disambiguation winner -/

theorem mem_of_lookup_eq {β : Type} : ∀ (l : List (String × β)) (k : String) (v : β),
    l.lookup k = some v → (k, v) ∈ l := by
  intro l
  induction l with
  | nil => intro k v h; simp [List.lookup] at h
  | cons p t ih =>
      intro k v h
      obtain ⟨a, b⟩ := p
      rw [List.lookup] at h
      by_cases hb : (k == a) = true
      · rw [hb] at h
        simp only [Option.some_inj] at h
        have hk : k = a := eq_of_beq hb
        subst hk
        subst h
        exact List.mem_cons_self _ _
      · rw [Bool.not_eq_true] at hb
        rw [hb] at h
        exact List.mem_cons_of_mem _ (ih k v h)

theorem sortScored_perm (l : List (ℕ × String)) :
    (Rankings.sortScored l).Perm l :=
  pySort_perm _ l

theorem sortScored_pairwise (l : List (ℕ × String)) :
    (Rankings.sortScored l).Pairwise (fun p q => q.1 ≤ p.1) :=
  @pySort_pairwise (ℕ × String) (fun p q => q.1 ≤ p.1)
    (fun p q => decide (q.1 < p.1))
    (fun a b c h1 h2 => le_trans h2 h1)
    (fun a b h => le_of_lt (of_decide_eq_true h))
    (fun a b h => not_lt.mp (of_decide_eq_false h))
    l

theorem aeWinner_nil (authors : List Rankings.AuthorRecord)
    (members : List Rankings.MemberRecord) (norm : String)
    (hg : Rankings.authorGroup authors norm = []) :
    Rankings.aeWinner authors members norm = none := by
  unfold Rankings.aeWinner
  rw [hg]

theorem aeWinner_no_member (authors : List Rankings.AuthorRecord)
    (members : List Rankings.MemberRecord) (norm : String)
    (a0 : Rankings.AuthorRecord) (rest : List Rankings.AuthorRecord)
    (hg : Rankings.authorGroup authors norm = a0 :: rest)
    (hm : (Rankings.member_by_norm members).lookup norm = none) :
    Rankings.aeWinner authors members norm = none := by
  unfold Rankings.aeWinner
  rw [hg, hm]

theorem aeWinner_eq (authors : List Rankings.AuthorRecord)
    (members : List Rankings.MemberRecord) (norm : String)
    (a0 : Rankings.AuthorRecord) (rest : List Rankings.AuthorRecord)
    (mem : Rankings.MemberRecord)
    (hg : Rankings.authorGroup authors norm = a0 :: rest)
    (hm : (Rankings.member_by_norm members).lookup norm = some mem) :
    Rankings.aeWinner authors members norm =
      (if rest = [] then some (some a0.name)
      else match Rankings.sortScored ((a0 :: rest).map
          (fun x => (Rankings.overlap x mem, x.name))) with
        | [] => some none
        | (o1, n1) :: srest =>
          if (decide (0 < o1) && (match srest.head? with
              | none => true
              | some p => decide (p.1 < o1))) then some (some n1)
          else some none) := by
  unfold Rankings.aeWinner
  rw [hg, hm]

theorem aeWinner_winner_in_group (authors : List Rankings.AuthorRecord)
    (members : List Rankings.MemberRecord) (norm : String) (w : String)
    (hw : Rankings.aeWinner authors members norm = some (some w)) :
    ∃ b ∈ Rankings.authorGroup authors norm, b.name = w := by
  cases hg : Rankings.authorGroup authors norm with
  | nil =>
      rw [aeWinner_nil authors members norm hg] at hw
      exact absurd hw (by simp)
  | cons a0 rest =>
      cases hm : (Rankings.member_by_norm members).lookup norm with
      | none =>
          rw [aeWinner_no_member authors members norm a0 rest hg hm] at hw
          exact absurd hw (by simp)
      | some mem =>
          rw [aeWinner_eq authors members norm a0 rest mem hg hm] at hw
          by_cases hrest : rest = []
          · rw [if_pos hrest] at hw
            simp only [Option.some_inj] at hw
            exact ⟨a0, by simp, hw⟩
          · rw [if_neg hrest] at hw
            cases hsorted : Rankings.sortScored ((a0 :: rest).map
                (fun x => (Rankings.overlap x mem, x.name))) with
            | nil => rw [hsorted] at hw; exact absurd hw (by simp)
            | cons p1 srest =>
                obtain ⟨o1, n1⟩ := p1
                rw [hsorted] at hw
                have hw2 : (if (decide (0 < o1) && (match srest.head? with
                    | none => true
                    | some p => decide (p.1 < o1))) then some (some n1)
                    else (some none : Option (Option String))) = some (some w) := hw
                clear hw
                split_ifs at hw2 with hc
                · simp only [Option.some_inj] at hw2
                  have hmem1 : (o1, n1) ∈ (a0 :: rest).map
                      (fun x => (Rankings.overlap x mem, x.name)) := by
                    have h1 : (o1, n1) ∈ Rankings.sortScored ((a0 :: rest).map
                        (fun x => (Rankings.overlap x mem, x.name))) := by
                      rw [hsorted]; simp
                    exact (sortScored_perm _).mem_iff.mp h1
                  obtain ⟨c, hc2, hpair⟩ := List.mem_map.mp hmem1
                  refine ⟨c, hc2, ?_⟩
                  have := congrArg Prod.snd hpair
                  simp only at this
                  rw [this, hw2]
                · exact absurd hw2 (by simp)

theorem isWinner_of_aeWinner (authors : List Rankings.AuthorRecord)
    (members : List Rankings.MemberRecord) (norm : String)
    (b : Rankings.AuthorRecord) (hb : b ∈ Rankings.authorGroup authors norm)
    (hw : Rankings.aeWinner authors members norm = some (some b.name)) :
    Rankings.isWinner authors members b = true := by
  have hnorm : Rankings._normalize_name b.name = norm :=
    of_decide_eq_true (List.mem_filter.mp hb).2
  unfold Rankings.isWinner
  rw [hnorm, hw]
  simp

theorem linkedAe_eq_false (authors : List Rankings.AuthorRecord)
    (members : List Rankings.MemberRecord) (norm : String)
    (hall : ∀ b ∈ Rankings.authorGroup authors norm,
      Rankings.isWinner authors members b = false) :
    Rankings.linkedAe authors members norm = false := by
  unfold Rankings.linkedAe
  cases haw : Rankings.aeWinner authors members norm with
  | none => rfl
  | some o =>
      cases o with
      | none => rfl
      | some w =>
          obtain ⟨b, hb, hbw⟩ := aeWinner_winner_in_group authors members norm w haw
          have := isWinner_of_aeWinner authors members norm b hb (by rw [haw, hbw])
          rw [hall b hb] at this
          exact absurd this (by simp)

theorem standalone_mem_merge (authors : List Rankings.AuthorRecord)
    (members : List Rankings.MemberRecord) (norm : String)
    (mem : Rankings.MemberRecord)
    (hm : (Rankings.member_by_norm members).lookup norm = some mem)
    (hnl : Rankings.linkedAe authors members norm = false) :
    Rankings.standaloneMemberEntry mem ∈
      (Rankings._merge_rankings authors members).map Prod.fst := by
  rw [merge_map_fst]
  rw [(pySort_perm _ _).mem_iff]
  apply List.mem_append_right
  apply List.mem_map.mpr
  refine ⟨(norm, mem), ?_, rfl⟩
  apply List.mem_filter.mpr
  refine ⟨mem_of_lookup_eq _ norm mem hm, ?_⟩
  simp [hnl]

theorem aeWinner_spec (authors : List Rankings.AuthorRecord)
    (members : List Rankings.MemberRecord)
    (hdist : (authors.map (fun a => a.name)).Nodup)
    (norm : String) (mem : Rankings.MemberRecord)
    (hm : (Rankings.member_by_norm members).lookup norm = some mem)
    (a : Rankings.AuthorRecord) (ha : a ∈ Rankings.authorGroup authors norm) :
    Rankings.isWinner authors members a = true ↔
      ((Rankings.authorGroup authors norm).length = 1 ∨
        (0 < Rankings.overlap a mem ∧ ∀ b ∈ Rankings.authorGroup authors norm,
          b.name ≠ a.name → Rankings.overlap b mem < Rankings.overlap a mem)) := by
  have hnorm : Rankings._normalize_name a.name = norm :=
    of_decide_eq_true (List.mem_filter.mp ha).2
  have hgnames : ((Rankings.authorGroup authors norm).map (fun x => x.name)).Nodup := by
    have hsub := (List.filter_sublist
      (p := fun x => decide (Rankings._normalize_name x.name = norm)) authors).map
      (fun x => x.name)
    exact hdist.sublist hsub
  have hinj : ∀ b ∈ Rankings.authorGroup authors norm,
      ∀ c ∈ Rankings.authorGroup authors norm, b.name = c.name → b = c := by
    intro b hb c hc h
    exact List.inj_on_of_nodup_map hgnames hb hc h
  unfold Rankings.isWinner
  rw [hnorm, decide_eq_true_eq]
  cases hg : Rankings.authorGroup authors norm with
  | nil => rw [hg] at ha; exact absurd ha (by simp)
  | cons a0 rest =>
      rw [hg] at ha hinj hgnames
      rw [aeWinner_eq authors members norm a0 rest mem hg hm]
      cases rest with
      | nil =>
          rw [if_pos rfl]
          simp only [List.mem_singleton] at ha
          subst ha
          simp
      | cons r0 rs =>
          rw [if_neg (by simp)]
          have hperm : (Rankings.sortScored ((a0 :: r0 :: rs).map
              (fun x => (Rankings.overlap x mem, x.name)))).Perm
              ((a0 :: r0 :: rs).map (fun x => (Rankings.overlap x mem, x.name))) :=
            sortScored_perm _
          have hpw := sortScored_pairwise ((a0 :: r0 :: rs).map
            (fun x => (Rankings.overlap x mem, x.name)))
          cases hsorted : Rankings.sortScored ((a0 :: r0 :: rs).map
              (fun x => (Rankings.overlap x mem, x.name))) with
          | nil =>
              rw [hsorted] at hperm
              have := hperm.length_eq
              simp at this
          | cons p1 srest =>
              cases srest with
              | nil =>
                  rw [hsorted] at hperm
                  have := hperm.length_eq
                  simp at this
              | cons p2 srest2 =>
                  obtain ⟨o1, n1⟩ := p1
                  obtain ⟨o2, n2⟩ := p2
                  rw [hsorted] at hperm hpw
                  show (if (decide (0 < o1) && decide (o2 < o1)) then some (some n1)
                      else (some none : Option (Option String))) = some (some a.name) ↔ _
                  have hmem_head : (o1, n1) ∈ (a0 :: r0 :: rs).map
                      (fun x => (Rankings.overlap x mem, x.name)) :=
                    hperm.mem_iff.mp (by simp)
                  have hmem_second : (o2, n2) ∈ (a0 :: r0 :: rs).map
                      (fun x => (Rankings.overlap x mem, x.name)) :=
                    hperm.mem_iff.mp (by simp)
                  have hmax : ∀ q ∈ (a0 :: r0 :: rs).map
                      (fun x => (Rankings.overlap x mem, x.name)), q.1 ≤ o1 := by
                    intro q hq
                    have hq2 := hperm.symm.mem_iff.mp hq
                    rcases List.mem_cons.mp hq2 with rfl | hq3
                    · exact le_refl _
                    · exact (List.pairwise_cons.mp hpw).1 q hq3
                  have h2bound : ∀ q ∈ ((o2, n2) :: srest2 :
                      List (ℕ × String)), q.1 ≤ o2 := by
                    intro q hq
                    rcases List.mem_cons.mp hq with rfl | hq2
                    · exact le_refl _
                    · exact (List.pairwise_cons.mp
                        (List.pairwise_cons.mp hpw).2).1 q hq2
                  have hnames_perm : (((o1, n1) :: (o2, n2) :: srest2).map Prod.snd).Perm
                      (((a0 :: r0 :: rs).map
                        (fun x => (Rankings.overlap x mem, x.name))).map Prod.snd) :=
                    hperm.map Prod.snd
                  have hsnd_nodup : (((o1, n1) :: (o2, n2) :: srest2).map Prod.snd).Nodup := by
                    rw [hnames_perm.nodup_iff]
                    rw [List.map_map]
                    exact hgnames
                  have hn1n2 : n1 ≠ n2 := by
                    simp only [List.map_cons, List.nodup_cons, List.mem_cons] at hsnd_nodup
                    intro hh
                    exact hsnd_nodup.1 (Or.inl hh)
                  have hamem : (Rankings.overlap a mem, a.name) ∈ (a0 :: r0 :: rs).map
                      (fun x => (Rankings.overlap x mem, x.name)) :=
                    List.mem_map_of_mem _ ha
                  by_cases hcond : 0 < o1 ∧ o2 < o1
                  · rw [if_pos (by simp only [Bool.and_eq_true, decide_eq_true_eq]; exact ⟨hcond.1, hcond.2⟩)]
                    constructor
                    · intro hEq
                      have hn1 : n1 = a.name := by simpa using hEq
                      obtain ⟨c, hc, hpair⟩ := List.mem_map.mp hmem_head
                      have hcname : c.name = a.name := by
                        rw [← hn1]
                        exact congrArg Prod.snd hpair
                      have hceq : c = a := hinj c hc a ha hcname
                      have hova : Rankings.overlap a mem = o1 := by
                        rw [← hceq]
                        exact congrArg Prod.fst hpair
                      refine Or.inr ⟨by rw [hova]; exact hcond.1, ?_⟩
                      intro b hb hbneq
                      have hbpair : (Rankings.overlap b mem, b.name) ∈ (a0 :: r0 :: rs).map
                          (fun x => (Rankings.overlap x mem, x.name)) :=
                        List.mem_map_of_mem _ hb
                      have hbsorted := hperm.symm.mem_iff.mp hbpair
                      rcases List.mem_cons.mp hbsorted with heq | hb2
                      · have : b.name = n1 := congrArg Prod.snd heq
                        rw [hn1] at this
                        exact absurd this hbneq
                      · have hble : Rankings.overlap b mem ≤ o2 :=
                          h2bound _ hb2
                        rw [hova]
                        omega
                    · rintro (hlen | ⟨hpos, hforall⟩)
                      · exact absurd hlen (by simp)
                      · obtain ⟨c, hc, hpair⟩ := List.mem_map.mp hmem_head
                        by_cases hcn : c.name = a.name
                        · have hn1 : n1 = a.name := by
                            rw [← hcn]
                            exact (congrArg Prod.snd hpair).symm
                          rw [hn1]
                        · have hlt := hforall c hc hcn
                          have hle : Rankings.overlap a mem ≤ o1 := hmax _ hamem
                          have ho1 : o1 = Rankings.overlap c mem :=
                            (congrArg Prod.fst hpair).symm
                          omega
                  · rw [if_neg (by simp only [Bool.and_eq_true, decide_eq_true_eq]; exact hcond)]
                    constructor
                    · intro hEq
                      exact absurd hEq (by simp)
                    · rintro (hlen | ⟨hpos, hforall⟩)
                      · exact absurd hlen (by simp)
                      · exfalso
                        obtain ⟨c, hc, hpair⟩ := List.mem_map.mp hmem_head
                        have hceq : c = a := by
                          by_contra hne
                          have hcn : c.name ≠ a.name := fun hh => hne (hinj c hc a ha hh)
                          have hlt := hforall c hc hcn
                          have hle : Rankings.overlap a mem ≤ o1 := hmax _ hamem
                          have ho1 : o1 = Rankings.overlap c mem :=
                            (congrArg Prod.fst hpair).symm
                          omega
                        have ho1 : o1 = Rankings.overlap a mem := by
                          rw [← hceq]
                          exact (congrArg Prod.fst hpair).symm
                        have hn1a : n1 = a.name := by
                          rw [← hceq]
                          exact (congrArg Prod.snd hpair).symm
                        obtain ⟨b, hb, hbpair⟩ := List.mem_map.mp hmem_second
                        have hbn2 : b.name = n2 := congrArg Prod.snd hbpair
                        have hbn : b.name ≠ a.name := by
                          intro hh
                          apply hn1n2
                          rw [hn1a, ← hh, hbn2]
                        have hlt := hforall b hb hbn
                        have ho2 : o2 = Rankings.overlap b mem :=
                          (congrArg Prod.fst hbpair).symm
                        exact hcond ⟨by omega, by omega⟩

/-! ## Claim C10 -/

/-- C10: an entry that absorbs a member takes the member affiliation when it
is non-empty and falls back to the author affiliation otherwise; an entry
that absorbs nothing keeps the author affiliation. -/
theorem C10_affiliation_fallback :
    (∀ (authors : List Rankings.AuthorRecord) (members : List Rankings.MemberRecord)
        (a : Rankings.AuthorRecord) (m : Rankings.MemberRecord),
      (Rankings.member_by_norm members).lookup (Rankings._normalize_name a.name) = some m →
      Rankings.isWinner authors members a = true →
      (Rankings.authorEntry authors members a).affiliation =
        (if m.affiliation ≠ "" then m.affiliation else a.affiliation))
    ∧ (∀ (authors : List Rankings.AuthorRecord) (members : List Rankings.MemberRecord)
        (a : Rankings.AuthorRecord),
      Rankings.isWinner authors members a = false →
      (Rankings.authorEntry authors members a).affiliation = a.affiliation) := by
  constructor
  · intro authors members a m hm hw
    unfold Rankings.authorEntry
    rw [if_pos hw, hm]
    rfl
  · intro authors members a hw
    unfold Rankings.authorEntry
    rw [if_neg (by simp [hw])]
    rfl

/-- C10 witness: the affiliation theorem applied at concrete inputs. -/
theorem C10_affiliation_fallback_witness :
    (Rankings.authorEntry [c10Author] [c10Member] c10Author).affiliation =
      (if c10Member.affiliation ≠ "" then c10Member.affiliation else c10Author.affiliation)
    ∧ (Rankings.authorEntry [c10Author] [] c10Author).affiliation = c10Author.affiliation := by
  constructor
  · exact C10_affiliation_fallback.1 [c10Author] [c10Member] c10Author c10Member
      (by decide) (by decide)
  · exact C10_affiliation_fallback.2 [c10Author] [] c10Author (by decide)

/-! ## Claim C1 -/

/-- C1 counterexample: with two author records carrying the identical raw
name "Wei Zhang", the loser with conference overlap zero also absorbs the
member data (its entry has ae_memberships 1), because the winner is
designated by raw name; this refutes the claimed absorb-iff-unique-maximum
property as universally stated. -/
theorem C1_counterexample :
    Rankings.isWinner [c1cA1, c1cA2] [c1cM] c1cA2 = true
    ∧ (Rankings.authorEntry [c1cA1, c1cA2] [c1cM] c1cA2).ae_memberships = 1
    ∧ Rankings.overlap c1cA2 c1cM = 0 := by
  refine ⟨by decide, by decide, by decide⟩

/-- C1 (amended): provided the raw author names are pairwise distinct, an
author in the group of a normalized key that also indexes a member wins iff
it is alone in the group or its conference overlap with the member is
positive and strictly greater than every other group author; the winner
entry absorbs the member data and every other entry has author-only data;
and when no author wins, the member is emitted as a standalone entry with
artifacts 0 and positive ae_memberships when it has memberships. -/
theorem C1_merge_disambiguation
    (authors : List Rankings.AuthorRecord) (members : List Rankings.MemberRecord)
    (hdist : (authors.map (fun a => a.name)).Nodup)
    (norm : String) (mem : Rankings.MemberRecord)
    (hm : (Rankings.member_by_norm members).lookup norm = some mem)
    (a : Rankings.AuthorRecord) (ha : a ∈ Rankings.authorGroup authors norm) :
    (Rankings.isWinner authors members a = true ↔
      ((Rankings.authorGroup authors norm).length = 1 ∨
        (0 < Rankings.overlap a mem ∧ ∀ b ∈ Rankings.authorGroup authors norm,
          b.name ≠ a.name → Rankings.overlap b mem < Rankings.overlap a mem)))
    ∧ (Rankings.isWinner authors members a = true →
        Rankings.authorEntry authors members a = Rankings.absorbedEntry a mem)
    ∧ (Rankings.isWinner authors members a = false →
        Rankings.authorEntry authors members a = Rankings.soloEntry a)
    ∧ ((∀ b ∈ Rankings.authorGroup authors norm,
          Rankings.isWinner authors members b = false) →
        Rankings.standaloneMemberEntry mem ∈
          (Rankings._merge_rankings authors members).map Prod.fst
        ∧ (Rankings.standaloneMemberEntry mem).artifacts = 0
        ∧ (0 < mem.total_memberships →
            0 < (Rankings.standaloneMemberEntry mem).ae_memberships)) := by
  have hnorm : Rankings._normalize_name a.name = norm :=
    of_decide_eq_true (List.mem_filter.mp ha).2
  refine ⟨aeWinner_spec authors members hdist norm mem hm a ha, ?_, ?_, ?_⟩
  · intro hw
    unfold Rankings.authorEntry
    rw [if_pos hw, hnorm, hm]
  · intro hw
    unfold Rankings.authorEntry
    rw [if_neg (by simp [hw])]
  · intro hall
    refine ⟨standalone_mem_merge authors members norm mem hm
      (linkedAe_eq_false authors members norm hall), rfl, ?_⟩
    intro hpos
    exact hpos

/-- C1 witness: the amended disambiguation theorem applied to two authors
with distinct raw names sharing the key of one member. -/
theorem C1_merge_disambiguation_witness :
    Rankings.authorEntry [c1wA1, c1wA2] [c1wM] c1wA1 =
      Rankings.absorbedEntry c1wA1 c1wM := by
  exact (C1_merge_disambiguation [c1wA1, c1wA2] [c1wM] (by decide) "wei zhang" c1wM
    (by decide) c1wA1 (by decide)).2.1 (by decide)

/-! ## Claim C8 -/

/-- C8 counterexample: with two author records carrying the identical raw
name, both combined entries absorb the single member record, so it is not
the case that at most one author entry carries the member data while the
others have ae_memberships 0. -/
theorem C8_counterexample :
    (Rankings._merge_rankings [c8cA1, c8cA2] [c8cM]).map
      (fun p => p.1.ae_memberships) = [1, 1] := by
  decide

/-- C8 (amended): provided the raw author names are pairwise distinct, at
most one author of a shared normalized key is the winner that absorbs the
member committee data, and every non-winner author entry has ae_memberships
0 and chair_count 0. -/
theorem C8_winner_uniqueness
    (authors : List Rankings.AuthorRecord) (members : List Rankings.MemberRecord)
    (hdist : (authors.map (fun a => a.name)).Nodup)
    (norm : String) (mem : Rankings.MemberRecord)
    (_hm : (Rankings.member_by_norm members).lookup norm = some mem) :
    (∀ a ∈ Rankings.authorGroup authors norm, ∀ b ∈ Rankings.authorGroup authors norm,
      Rankings.isWinner authors members a = true →
      Rankings.isWinner authors members b = true → a = b)
    ∧ (∀ a ∈ Rankings.authorGroup authors norm,
        Rankings.isWinner authors members a = false →
        (Rankings.authorEntry authors members a).ae_memberships = 0
        ∧ (Rankings.authorEntry authors members a).chair_count = 0) := by
  have hgnames : ((Rankings.authorGroup authors norm).map (fun x => x.name)).Nodup := by
    have hsub := (List.filter_sublist
      (p := fun x => decide (Rankings._normalize_name x.name = norm)) authors).map
      (fun x => x.name)
    exact hdist.sublist hsub
  constructor
  · intro a ha b hb hwa hwb
    have hna : Rankings._normalize_name a.name = norm :=
      of_decide_eq_true (List.mem_filter.mp ha).2
    have hnb : Rankings._normalize_name b.name = norm :=
      of_decide_eq_true (List.mem_filter.mp hb).2
    unfold Rankings.isWinner at hwa hwb
    rw [hna, decide_eq_true_eq] at hwa
    rw [hnb, decide_eq_true_eq] at hwb
    rw [hwa] at hwb
    have hnames : a.name = b.name := by simpa using hwb
    exact List.inj_on_of_nodup_map hgnames ha hb hnames
  · intro a ha hw
    have hsolo : Rankings.authorEntry authors members a = Rankings.soloEntry a := by
      unfold Rankings.authorEntry
      rw [if_neg (by simp [hw])]
    rw [hsolo]
    exact ⟨rfl, rfl⟩

/-- C8 witness: the uniqueness theorem applied to two distinct-name authors
sharing one member key; the non-winner entry carries no committee data. -/
theorem C8_winner_uniqueness_witness :
    (Rankings.authorEntry [c8wA1, c8wA2] [c8wM] c8wA2).ae_memberships = 0
    ∧ (Rankings.authorEntry [c8wA1, c8wA2] [c8wM] c8wA2).chair_count = 0 := by
  exact (C8_winner_uniqueness [c8wA1, c8wA2] [c8wM] (by decide) "li wei" c8wM
    (by decide)).2 c8wA2 (by decide) (by decide)

/-! ## Facts about the enrichment loop -/

theorem search_error_none (net : DBLP.Net) (name : String)
    (h : net.searchApi ⟨pyStrip (Rankings.stripDblpSuffix name.data)⟩ = .error ()) :
    DBLP.search_dblp_author net name = none := by
  unfold DBLP.search_dblp_author
  simp only
  rw [h]

theorem searchStep_not_found (net : DBLP.Net) (now : Int)
    (hist : List (String × DBLP.HistEntry)) (a : DBLP.EnAuthor)
    (h : DBLP.search_dblp_author net a.name = none) :
    DBLP.searchStep net now hist a = (a, ⟨false, now,
      (((hist.lookup a.name).map (fun e => e.attempt_count)).getD 0) + 1⟩) := by
  unfold DBLP.searchStep
  simp only [h]
  rfl

theorem searchStep_fetch_error (net : DBLP.Net) (now : Int)
    (hist : List (String × DBLP.HistEntry)) (a : DBLP.EnAuthor) (p : String)
    (hs : DBLP.search_dblp_author net a.name = some p)
    (hf : net.fetchPage p = .error ()) :
    DBLP.searchStep net now hist a = (a, ⟨false, now,
      (((hist.lookup a.name).map (fun e => e.attempt_count)).getD 0) + 1⟩) := by
  unfold DBLP.searchStep
  simp only [hs]
  unfold DBLP.fetch_affiliation
  simp only [hf]
  rfl

theorem searchStep_fst_hist (net : DBLP.Net) (now : Int)
    (hist hist2 : List (String × DBLP.HistEntry)) (a : DBLP.EnAuthor) :
    (DBLP.searchStep net now hist a).1 = (DBLP.searchStep net now hist2 a).1 := rfl

theorem searchStep_name (net : DBLP.Net) (now : Int)
    (hist : List (String × DBLP.HistEntry)) (a : DBLP.EnAuthor) :
    (DBLP.searchStep net now hist a).1.name = a.name := by
  show (match (match DBLP.search_dblp_author net a.name with
      | some p => DBLP.fetch_affiliation net p
      | none => none) with
    | some s => { a with affiliation := s }
    | none => a).name = a.name
  generalize (match DBLP.search_dblp_author net a.name with
      | some p => DBLP.fetch_affiliation net p
      | none => none) = affil
  cases affil <;> rfl

theorem searchLoop_names (net : DBLP.Net) (now : Int) (ms : Option ℕ) :
    ∀ (ts : List (ℕ × DBLP.EnAuthor)) (hist : List (String × DBLP.HistEntry)) (perf : ℕ),
    ((DBLP.searchLoop net now ms ts hist perf).1).map (fun a => a.name) =
      ts.map (fun pa => pa.2.name) := by
  intro ts
  induction ts with
  | nil => intro hist perf; rfl
  | cons pa rest ih =>
      intro hist perf
      unfold DBLP.searchLoop
      split
      · simp only [List.map_cons]
        rw [ih]
      · simp only [List.map_cons]
        rw [ih, searchStep_name]

theorem searchLoop_map_none (net : DBLP.Net) (now : Int) :
    ∀ (ts : List (ℕ × DBLP.EnAuthor)) (hist href : List (String × DBLP.HistEntry))
      (perf : ℕ),
    (DBLP.searchLoop net now none ts hist perf).1 =
      ts.map (fun pa => (DBLP.searchStep net now href pa.2).1) := by
  intro ts
  induction ts with
  | nil => intro hist href perf; rfl
  | cons pa rest ih =>
      intro hist href perf
      unfold DBLP.searchLoop
      split
      · rename_i hcond
        simp at hcond
      · simp only [List.map_cons]
        rw [ih _ href]
        rw [searchStep_fst_hist net now hist href]

theorem categorize_names_perm (now : Int) (hist : List (String × DBLP.HistEntry)) :
    ∀ authors : List DBLP.EnAuthor,
    (((DBLP.categorize now hist authors).1).map (fun a => a.name) ++
      ((DBLP.categorize now hist authors).2).map (fun pa => pa.2.name)).Perm
      (authors.map (fun a => a.name)) := by
  intro authors
  induction authors with
  | nil => simp [DBLP.categorize]
  | cons a rest ih =>
      unfold DBLP.categorize
      by_cases h1 : DBLP.hasGoodAffiliation a.affiliation = true
      · rw [if_pos h1]
        simp only [List.map_cons, List.cons_append]
        exact ih.cons a.name
      · rw [if_neg h1]
        by_cases h2 : (DBLP.should_search_author now a.name hist).1 = true
        · rw [if_pos h2]
          simp only [List.map_cons]
          exact List.perm_middle.trans (ih.cons a.name)
        · rw [if_neg h2]
          simp only [List.map_cons, List.cons_append]
          exact ih.cons a.name

theorem categorize_snd_nil (now : Int) (hist : List (String × DBLP.HistEntry)) :
    ∀ authors : List DBLP.EnAuthor, (DBLP.categorize now hist authors).2 = [] →
    (DBLP.categorize now hist authors).1 = authors := by
  intro authors
  induction authors with
  | nil => intro _; rfl
  | cons a rest ih =>
      intro h2
      unfold DBLP.categorize at h2 ⊢
      by_cases h1 : DBLP.hasGoodAffiliation a.affiliation = true
      · rw [if_pos h1] at h2 ⊢
        simp only at h2 ⊢
        rw [ih h2]
      · rw [if_neg h1] at h2 ⊢
        by_cases h3 : (DBLP.should_search_author now a.name hist).1 = true
        · rw [if_pos h3] at h2
          simp at h2
        · rw [if_neg h3] at h2 ⊢
          simp only at h2 ⊢
          rw [ih h2]

/-! ## Claim C9 -/

/-- C9: a network error in the remote search or the affiliation fetch of a
single author never halts or corrupts the batch: the enriched output always
carries every input author (as a name permutation) for every oracle; a
failing author is treated as not found, keeping its affiliation and writing
a history entry with found false, timestamp now and an incremented attempt
count; the produced author record of a search step does not depend on the
history state accumulated from other authors; and with no search cap the
output is the pass-through authors followed by one independent search step
per searched author. -/
theorem C9_error_isolation :
    (∀ (net : DBLP.Net) (now : Int) (maxSearches : Option ℕ)
        (authors : List DBLP.EnAuthor) (history : List (String × DBLP.HistEntry)),
      ((DBLP.enrich net now maxSearches authors history).1.map (fun a => a.name)).Perm
        (authors.map (fun a => a.name)))
    ∧ (∀ (net : DBLP.Net) (now : Int) (hist : List (String × DBLP.HistEntry))
        (a : DBLP.EnAuthor),
        net.searchApi ⟨pyStrip (Rankings.stripDblpSuffix a.name.data)⟩ = .error () →
        DBLP.searchStep net now hist a = (a, ⟨false, now,
          (((hist.lookup a.name).map (fun e => e.attempt_count)).getD 0) + 1⟩))
    ∧ (∀ (net : DBLP.Net) (now : Int) (hist : List (String × DBLP.HistEntry))
        (a : DBLP.EnAuthor) (p : String),
        DBLP.search_dblp_author net a.name = some p →
        net.fetchPage p = .error () →
        DBLP.searchStep net now hist a = (a, ⟨false, now,
          (((hist.lookup a.name).map (fun e => e.attempt_count)).getD 0) + 1⟩))
    ∧ (∀ (net : DBLP.Net) (now : Int) (hist hist2 : List (String × DBLP.HistEntry))
        (a : DBLP.EnAuthor),
        (DBLP.searchStep net now hist a).1 = (DBLP.searchStep net now hist2 a).1)
    ∧ (∀ (net : DBLP.Net) (now : Int) (authors : List DBLP.EnAuthor)
        (history : List (String × DBLP.HistEntry)),
        (DBLP.enrich net now none authors history).1 =
          (DBLP.categorize now history authors).1 ++
            (pySort (fun p q => decide (p.1 < q.1))
              (DBLP.categorize now history authors).2).map
              (fun pa => (DBLP.searchStep net now history pa.2).1)) := by
  refine ⟨?_, ?_, ?_, ?_, ?_⟩
  · intro net now ms authors history
    unfold DBLP.enrich
    by_cases hempty : pySort (fun p q => decide (p.1 < q.1))
        (DBLP.categorize now history authors).2 = []
    · rw [if_pos hempty]
    · rw [if_neg hempty]
      simp only [List.map_append]
      rw [searchLoop_names]
      have hp : ((pySort (fun p q => decide (p.1 < q.1))
          (DBLP.categorize now history authors).2).map (fun pa => pa.2.name)).Perm
          (((DBLP.categorize now history authors).2).map (fun pa => pa.2.name)) :=
        (pySort_perm _ _).map _
      exact ((List.Perm.refl _).append hp).trans (categorize_names_perm now history authors)
  · intro net now hist a h
    exact searchStep_not_found net now hist a (search_error_none net a.name h)
  · intro net now hist a p hs hf
    exact searchStep_fetch_error net now hist a p hs hf
  · intro net now hist hist2 a
    exact searchStep_fst_hist net now hist hist2 a
  · intro net now authors history
    unfold DBLP.enrich
    by_cases hempty : pySort (fun p q => decide (p.1 < q.1))
        (DBLP.categorize now history authors).2 = []
    · rw [if_pos hempty, hempty]
      simp only [List.map_nil, List.append_nil]
      have hnil : (DBLP.categorize now history authors).2 = [] := by
        have hperm := pySort_perm (fun (p q : ℕ × DBLP.EnAuthor) => decide (p.1 < q.1))
          (DBLP.categorize now history authors).2
        rw [hempty] at hperm
        exact (hperm.symm.eq_nil)
      exact (categorize_snd_nil now history authors hnil).symm
    · rw [if_neg hempty]
      show (DBLP.categorize now history authors).1 ++
          (DBLP.searchLoop net now none (pySort (fun p q => decide (p.1 < q.1))
            (DBLP.categorize now history authors).2) history 0).1 = _
      congr 1
      exact searchLoop_map_none net now _ history history 0

/-- C9 witness: the isolation theorem applied to a search-error oracle and a
fetch-error oracle on a concrete author with empty history. -/
theorem C9_error_isolation_witness :
    DBLP.searchStep DBLP.c9Net 1000 [] DBLP.c9Author =
      (DBLP.c9Author, ⟨false, 1000, 1⟩)
    ∧ DBLP.searchStep DBLP.c9Net2 1000 [] DBLP.c9Author =
      (DBLP.c9Author, ⟨false, 1000, 1⟩) := by
  constructor
  · exact C9_error_isolation.2.1 DBLP.c9Net 1000 [] DBLP.c9Author rfl
  · exact C9_error_isolation.2.2.1 DBLP.c9Net2 1000 [] DBLP.c9Author "99/1"
      (by decide) rfl
